import Mathlib

/-!
Verification development for the research-assistant agent core.

Text is modelled as `List Char` (abbreviated `Str`): every operation of the
source that manipulates Python `str` values is translated to an executable
function on `List Char`.  Python regular expressions used by the source are
fixed literal-tag patterns; they are modelled by explicit scanning functions
whose match semantics (earliest match, non-overlapping left-to-right
enumeration, case-insensitive tag comparison) mirror the `re` module on those
particular patterns.
-/

set_option maxHeartbeats 1000000

abbrev Str := List Char

/-- Whitespace test mirroring Python `str.strip()` / regex `\s` for the ASCII
whitespace characters (space, tab, newline, carriage return, vertical tab,
form feed). -/
def isWsChar (c : Char) : Bool :=
  c = ' ' || c = Char.ofNat 9 || c = Char.ofNat 10 || c = Char.ofNat 13 ||
  c = Char.ofNat 11 || c = Char.ofNat 12

/-- Python `s.strip()`: drop whitespace from both ends. -/
def stripWs (s : Str) : Str :=
  ((s.dropWhile isWsChar).reverse.dropWhile isWsChar).reverse

/-- Python `s.strip(chars)`: drop any character of `set` from both ends. -/
def stripSet (set : Str) (s : Str) : Str :=
  ((s.dropWhile (· ∈ set)).reverse.dropWhile (· ∈ set)).reverse

/-- Python `pat in s` (case-sensitive substring test). -/
def containsSub (s pat : Str) : Bool :=
  match s with
  | [] => pat.isEmpty
  | _ :: rest => pat.isPrefixOf s || containsSub rest pat

/-- Python `s.split(pat)[0]`: the text before the first occurrence of `pat`
(`s` itself when `pat` does not occur). -/
def beforeFirst (s pat : Str) : Str :=
  match s with
  | [] => []
  | c :: rest => if pat.isPrefixOf s then [] else c :: beforeFirst rest pat

/-- Python `s.split(c)` for a single separator character: always returns at
least one (possibly empty) piece. -/
def splitChar (sep : Char) : Str → List Str
  | [] => [[]]
  | c :: rest =>
    if c = sep then [] :: splitChar sep rest
    else
      match splitChar sep rest with
      | l :: ls => (c :: l) :: ls
      | [] => [[c]]

/-- Case folding used to model `re.IGNORECASE` matching of the ASCII tag
literals. -/
def lc (s : Str) : Str := s.map Char.toLower

/-- The literal `<tool_call>` opening tag. -/
def openTagLit : Str := "<tool_call>".data

/-- The literal `</tool_call>` closing tag. -/
def closeTagLit : Str := "</tool_call>".data

/-- Scan for the earliest case-insensitive occurrence of `pat`; on success
return `(before, tagText, after)` with `s = before ++ tagText ++ after` and
`lc tagText = pat`. -/
def splitAtTagCI (pat : Str) : Str → Option (Str × Str × Str)
  | [] => if pat.isEmpty then some ([], [], []) else none
  | c :: rest =>
    if pat.isPrefixOf (lc (c :: rest)) then
      some ([], (c :: rest).take pat.length, (c :: rest).drop pat.length)
    else
      match splitAtTagCI pat rest with
      | some (b, t, a) => some (c :: b, t, a)
      | none => none

/-- One complete `<tool_call> ... </tool_call>` region as found by
`TOOL_CALL_PATTERN.finditer`: the text before the match, the matched opening
tag text, the inner payload, the matched closing tag text, in source order. -/
structure RegionMatch where
  pre : Str
  openTxt : Str
  body : Str
  closeTxt : Str

/-- Earliest complete region of `s`, mirroring one regex match of
`<tool_call>\s*(.*?)\s*</tool_call>` (DOTALL, IGNORECASE): the match starts at
the earliest opening tag that is followed by a closing tag, and ends at the
earliest such closing tag (lazy inner group).  Returns the region and the text
after it. -/
def nextRegion (s : Str) : Option (RegionMatch × Str) :=
  match splitAtTagCI openTagLit s with
  | none => none
  | some (pre, ot, afterOpen) =>
    match splitAtTagCI closeTagLit afterOpen with
    | none => none
    | some (body, ct, rest) => some (⟨pre, ot, body, ct⟩, rest)

/-- All complete regions in order (fuelled; fuel `s.length + 1` is always
sufficient because each region consumes at least the two tags). Also returns
the text after the last region (`s` itself when there is none). -/
def findMatchesF : Nat → Str → List RegionMatch × Str
  | 0, s => ([], s)
  | fuel + 1, s =>
    match nextRegion s with
    | none => ([], s)
    | some (m, rest) =>
      match findMatchesF fuel rest with
      | (ms, trail) => (m :: ms, trail)

/-- All complete tool-call regions of `s` with the trailing text. -/
def findMatches (s : Str) : List RegionMatch × Str :=
  findMatchesF (s.length + 1) s

/-- Search for `INCOMPLETE_TOOL_CALL_PATTERN = <tool_call>\s*(?!.*</tool_call>)`
(DOTALL): true iff some opening tag occurrence has no closing tag anywhere
after it.  (The greedy `\s*` with backtracking does not change this condition
because a closing tag starts with a non-whitespace character.) -/
def hasIncompleteOpenF : Nat → Str → Bool
  | 0, _ => false
  | fuel + 1, s =>
    match splitAtTagCI openTagLit s with
    | none => false
    | some (_, _, afterOpen) =>
      match splitAtTagCI closeTagLit afterOpen with
      | none => true
      | some _ => hasIncompleteOpenF fuel afterOpen

/-- Truthiness of `INCOMPLETE_TOOL_CALL_PATTERN.search s`. -/
def hasIncompleteOpen (s : Str) : Bool :=
  hasIncompleteOpenF (s.length + 1) s

/-! ## JSON model

Executable model of the fragment of `json.loads` exercised by the parser:
values are objects, arrays, strings (with the standard escapes), numbers
(kept as their lexeme), booleans, `null`, and the Python-accepted extensions
`NaN` / `Infinity` / `-Infinity`.  Duplicate object keys follow Python
semantics (the last occurrence wins on lookup).  `\uXXXX` escapes are decoded
to the scalar value without surrogate-pair combining, which is sufficient for
every input considered here. -/

inductive Json where
  | jnull : Json
  | jbool : Bool → Json
  | jnum : Str → Json
  | jstr : Str → Json
  | jarr : List Json → Json
  | jobj : List (Str × Json) → Json

/-- JSON inter-token whitespace (RFC 8259: space, tab, newline, return). -/
def isJsonWs (c : Char) : Bool :=
  c = ' ' || c = Char.ofNat 9 || c = Char.ofNat 10 || c = Char.ofNat 13

def skipJsonWs (s : Str) : Str := s.dropWhile isJsonWs

def squote : Char := Char.ofNat 39

def dquote : Char := Char.ofNat 34

def isHexDigit (c : Char) : Bool :=
  c.isDigit || (Char.toLower c ≥ 'a' && Char.toLower c ≤ 'f')

def hexVal (c : Char) : Nat :=
  if c.isDigit then c.toNat - 48 else (Char.toLower c).toNat - 87

/-- Body of a JSON string after the opening quote, up to the closing quote. -/
def parseJStr : Nat → Str → Option (Str × Str)
  | 0, _ => none
  | _ + 1, [] => none
  | fuel + 1, c :: rest =>
    if c = dquote then some ([], rest)
    else if c = '\\' then
      match rest with
      | [] => none
      | e :: rest2 =>
        let cont (d : Char) (r : Str) : Option (Str × Str) :=
          match parseJStr fuel r with
          | some (cs, r2) => some (d :: cs, r2)
          | none => none
        if e = dquote then cont dquote rest2
        else if e = '\\' then cont '\\' rest2
        else if e = '/' then cont '/' rest2
        else if e = 'b' then cont (Char.ofNat 8) rest2
        else if e = 'f' then cont (Char.ofNat 12) rest2
        else if e = 'n' then cont (Char.ofNat 10) rest2
        else if e = 'r' then cont (Char.ofNat 13) rest2
        else if e = 't' then cont (Char.ofNat 9) rest2
        else if e = 'u' then
          match rest2 with
          | h1 :: h2 :: h3 :: h4 :: rest3 =>
            if isHexDigit h1 && isHexDigit h2 && isHexDigit h3 && isHexDigit h4 then
              cont (Char.ofNat (((hexVal h1 * 16 + hexVal h2) * 16 + hexVal h3) * 16 + hexVal h4)) rest3
            else none
          | _ => none
        else none
    else
      match parseJStr fuel rest with
      | some (cs, r2) => some (c :: cs, r2)
      | none => none

/-- Lexeme of a JSON number: `-?(0|[1-9][0-9]*)(\.[0-9]+)?([eE][+-]?[0-9]+)?`. -/
def parseJNum (s : Str) : Option (Str × Str) :=
  let (sign, s1) :=
    match s with
    | '-' :: r => (['-'], r)
    | _ => (([] : Str), s)
  let intDigits := s1.takeWhile Char.isDigit
  let s2 := s1.dropWhile Char.isDigit
  if intDigits.isEmpty then none
  else if intDigits.length > 1 && intDigits.headD ' ' = '0' then none
  else
    let (frac, s3) :=
      match s2 with
      | '.' :: r =>
        let ds := r.takeWhile Char.isDigit
        if ds.isEmpty then (([] : Str), s2) else ('.' :: ds, r.dropWhile Char.isDigit)
      | _ => (([] : Str), s2)
    let (expo, s4) :=
      match s3 with
      | e :: r =>
        if e = 'e' || e = 'E' then
          let (esign, r1) :=
            match r with
            | '+' :: r2 => (['+'], r2)
            | '-' :: r2 => (['-'], r2)
            | _ => (([] : Str), r)
          let ds := r1.takeWhile Char.isDigit
          if ds.isEmpty then (([] : Str), s3)
          else (e :: (esign ++ ds), r1.dropWhile Char.isDigit)
        else (([] : Str), s3)
      | _ => (([] : Str), s3)
    some (sign ++ intDigits ++ frac ++ expo, s4)

mutual

/-- Parse one JSON value at the head of `s` (leading whitespace already
consumed). -/
def parseJVal : Nat → Str → Option (Json × Str)
  | 0, _ => none
  | fuel + 1, s =>
    match s with
    | [] => none
    | c :: rest =>
      if c = dquote then
        match parseJStr (fuel + 1) rest with
        | some (cs, r) => some (.jstr cs, r)
        | none => none
      else if c = '[' then
        let r := skipJsonWs rest
        match r with
        | ']' :: r2 => some (.jarr [], r2)
        | _ =>
          match parseJItems fuel r with
          | some (items, r2) => some (.jarr items, r2)
          | none => none
      else if c = Char.ofNat 123 then
        let r := skipJsonWs rest
        match r with
        | c2 :: r2 =>
          if c2 = Char.ofNat 125 then some (.jobj [], r2)
          else
            match parseJMembers fuel r with
            | some (fields, r2) => some (.jobj fields, r2)
            | none => none
        | [] => none
      else if "true".data.isPrefixOf s then some (.jbool true, s.drop 4)
      else if "false".data.isPrefixOf s then some (.jbool false, s.drop 5)
      else if "null".data.isPrefixOf s then some (.jnull, s.drop 4)
      else if "NaN".data.isPrefixOf s then some (.jnum "NaN".data, s.drop 3)
      else if "Infinity".data.isPrefixOf s then some (.jnum "Infinity".data, s.drop 8)
      else if "-Infinity".data.isPrefixOf s then some (.jnum "-Infinity".data, s.drop 9)
      else
        match parseJNum s with
        | some (lex, r) => some (.jnum lex, r)
        | none => none

/-- Parse a non-empty comma-separated list of array items, consuming the
closing bracket. -/
def parseJItems : Nat → Str → Option (List Json × Str)
  | 0, _ => none
  | fuel + 1, s =>
    match parseJVal fuel s with
    | none => none
    | some (v, r) =>
      match skipJsonWs r with
      | ',' :: r2 =>
        match parseJItems fuel (skipJsonWs r2) with
        | some (vs, r3) => some (v :: vs, r3)
        | none => none
      | ']' :: r2 => some ([v], r2)
      | _ => none

/-- Parse a non-empty comma-separated list of object members, consuming the
closing brace. -/
def parseJMembers : Nat → Str → Option (List (Str × Json) × Str)
  | 0, _ => none
  | fuel + 1, s =>
    match s with
    | c :: rest =>
      if c = dquote then
        match parseJStr (fuel + 1) rest with
        | none => none
        | some (k, r) =>
          match skipJsonWs r with
          | ':' :: r2 =>
            match parseJVal fuel (skipJsonWs r2) with
            | none => none
            | some (v, r3) =>
              match skipJsonWs r3 with
              | ',' :: r4 =>
                match parseJMembers fuel (skipJsonWs r4) with
                | some (fields, r5) => some ((k, v) :: fields, r5)
                | none => none
              | c2 :: r4 =>
                if c2 = Char.ofNat 125 then some ([(k, v)], r4) else none
              | [] => none
          | _ => none
      else none
    | [] => none

end

/-- Model of `json.loads`: parse one value and require only whitespace to
remain. -/
def jsonLoads (s : Str) : Option Json :=
  match parseJVal (s.length + 1) (skipJsonWs s) with
  | some (v, rest) => if (skipJsonWs rest).isEmpty then some v else none
  | none => none

/-- Python `dict.get` on an object built by `json.loads`: with duplicate keys
the last occurrence wins. -/
def jsonGet (fields : List (Str × Json)) (k : Str) : Option Json :=
  (fields.reverse.find? (fun p => p.1 == k)).map (·.2)

/-! ## Tool-call parser (src/agent/parser.py) -/

/-- Mirrors `ToolCall` (name, arguments, raw JSON payload). -/
structure ToolCallS where
  name : Str
  arguments : List (Str × Json)
  raw : Str

/-- Mirrors `ParseResult`. -/
structure ParseResultS where
  tool_calls : List ToolCallS
  text_before : Str
  text_after : Str
  has_incomplete : Bool

/-- Mirrors `_clean_json`: strip, remove markdown fences, substitute single
quotes for double quotes when no double quote occurs. -/
def clean_json (raw : Str) : Str :=
  let cleaned := stripWs raw
  let cleaned := if "```json".data.isPrefixOf cleaned then cleaned.drop 7 else cleaned
  let cleaned := if "```".data.isPrefixOf cleaned then cleaned.drop 3 else cleaned
  let cleaned := if "```".data.isSuffixOf cleaned then cleaned.take (cleaned.length - 3) else cleaned
  let cleaned := stripWs cleaned
  if cleaned.contains squote && !(cleaned.contains dquote) then
    cleaned.map (fun c => if c = squote then dquote else c)
  else cleaned

/-- Mirrors `_parse_single_tool_call`, with `ValidationError` rendered as
`none`: clean the payload, JSON-parse it, and require an object with a
non-empty string `name` and an `arguments` field that is absent (default `{}`)
or an object. -/
def parse_single_tool_call (raw_json : Str) : Option ToolCallS :=
  let cleaned := clean_json raw_json
  match jsonLoads cleaned with
  | none => none
  | some data =>
    match data with
    | .jobj fields =>
      match jsonGet fields "name".data with
      | some (.jstr nm) =>
        if nm.isEmpty then none
        else
          match jsonGet fields "arguments".data with
          | none => some ⟨nm, [], raw_json⟩
          | some (.jobj args) => some ⟨nm, args, raw_json⟩
          | some _ => none
      | _ => none
    | _ => none

/-- Mirrors `parse_tool_calls`. -/
def parse_tool_calls (text : Str) : ParseResultS :=
  match findMatches text with
  | ([], _) =>
    if hasIncompleteOpen text then
      let text_before :=
        match splitAtTagCI openTagLit text with
        | some (pre, _, _) => pre
        | none => text
      ⟨[], stripWs text_before, [], true⟩
    else
      ⟨[], stripWs text, [], false⟩
  | (m :: ms, trail) =>
    let text_before := stripWs m.pre
    let text_after := stripWs trail
    let has_incomplete := hasIncompleteOpen text_after
    let tool_calls :=
      ((m :: ms).map (fun mm => stripWs mm.body)).filterMap parse_single_tool_call
    ⟨tool_calls, text_before, text_after, has_incomplete⟩

/-- Mirrors `has_tool_call` (truthiness of `TOOL_CALL_PATTERN.search`). -/
def has_tool_call (text : Str) : Bool :=
  (nextRegion text).isSome

/-- Mirrors `is_waiting_for_tool_call`. -/
def is_waiting_for_tool_call (text : Str) : Bool :=
  hasIncompleteOpen text && !(nextRegion text).isSome

example :
    (parse_tool_calls "hello".data).tool_calls.isEmpty = true ∧
    (parse_tool_calls "hello".data).text_before = "hello".data ∧
    (parse_tool_calls "hello".data).has_incomplete = false := by decide

example :
    (parse_tool_calls "a <tool_call> x".data).has_incomplete = true ∧
    (parse_tool_calls "a <tool_call> x".data).text_before = "a".data := by decide

example :
    ((parse_tool_calls "go <tool_call> \x7b\"name\": \"web_search\", \"arguments\": \x7b\"query\": \"X\"\x7d\x7d</tool_call> done".data).tool_calls.map (·.name)) = ["web_search".data] := by decide

/-! ## Citation processor (src/agent/citations.py)

`CITATION_PATTERN = \[(\d+)\]`.  Matches of this pattern can never overlap
(a match is an opening bracket, a maximal run of digits, and a closing
bracket, and no inner character of a match is an opening bracket), so
`finditer`/`sub` enumerate exactly the spans found by a left-to-right greedy
scan.  The scan is modelled by a tokenizer producing either plain characters
or citation tokens. -/

/-- Citation tokens: a plain character, or a matched `[n]` span. -/
inductive CTok where
  | chr : Char → CTok
  | cite : Nat → CTok

/-- Numeric value of a digit string (as `int()` on a match group). -/
def digitsToNat (s : Str) : Nat :=
  s.foldl (fun a c => a * 10 + (c.toNat - 48)) 0

/-- Decimal digits of `n`, most significant first (fuelled). -/
def natDigitsF : Nat → Nat → Str
  | 0, _ => []
  | fuel + 1, n =>
    if n < 10 then [Char.ofNat (48 + n)]
    else natDigitsF fuel (n / 10) ++ [Char.ofNat (48 + n % 10)]

/-- Decimal digits of `n`, as Python `str(n)` for naturals. -/
def natDigits (n : Nat) : Str := natDigitsF (n + 1) n

/-- Maximal digit run at the head of `s` and the remainder. -/
def spanDigits (s : Str) : Str × Str :=
  (s.takeWhile Char.isDigit, s.dropWhile Char.isDigit)

/-- Tokenize `s` into citation spans and plain characters (fuelled; fuel
`s.length + 1` is always sufficient). -/
def tokensF : Nat → Str → List CTok
  | 0, _ => []
  | _ + 1, [] => []
  | fuel + 1, c :: rest =>
    if c = '[' then
      match spanDigits rest with
      | ([], _) => .chr c :: tokensF fuel rest
      | (ds, d :: rest2) =>
        if d = ']' then .cite (digitsToNat ds) :: tokensF fuel rest2
        else .chr c :: tokensF fuel rest
      | (_, []) => .chr c :: tokensF fuel rest
    else .chr c :: tokensF fuel rest

/-- Tokenization of `s` under the `\[(\d+)\]` scan. -/
def tokens (s : Str) : List CTok := tokensF (s.length + 1) s

/-- Text of one token (`[k]` for a citation, as written by the `sub`
replacement `f"[{mapping[old]}]"`). -/
def renderTok : CTok → Str
  | .chr c => [c]
  | .cite n => '[' :: (natDigits n ++ [']'])

/-- Concatenated text of a token list. -/
def render (ts : List CTok) : Str := (ts.map renderTok).flatten

/-- Apply `f` to the number of a citation token. -/
def mapCite (f : Nat → Nat) : CTok → CTok
  | .cite n => .cite (f n)
  | t => t

/-- Citation numbers of `s` in match order (`finditer` groups). -/
def citationNumbersL (s : Str) : List Nat :=
  (tokens s).filterMap fun t =>
    match t with
    | .cite n => some n
    | .chr _ => none

/-- Mirrors `CITATION_PATTERN.sub(replace_citation, content)` for a total
renumbering function `f`. -/
def subCitations (f : Nat → Nat) (s : Str) : Str :=
  render ((tokens s).map (mapCite f))

/-- Python `sorted(set(l))` for naturals. -/
def sortDedup (l : List Nat) : List Nat :=
  l.dedup.insertionSort (· ≤ ·)

/-- Position-based renumbering: the rank (1-based) of `n` in the sorted list
of occurring numbers, i.e. `mapping[old]` in the source. -/
def rankOf (numbers : List Nat) (n : Nat) : Nat :=
  numbers.indexOf n + 1

/-- Mirrors `renumber_citations`: collect the sorted set of citation numbers,
map the k-th smallest to `k`, rewrite every `[n]`, and return the content with
the old-to-new mapping. -/
def renumber_citations (content : Str) : Str × List (Nat × Nat) :=
  let numbers := sortDedup (citationNumbersL content)
  if numbers.isEmpty then (content, [])
  else
    let mapping := numbers.enum.map (fun p => (p.2, p.1 + 1))
    (subCitations (rankOf numbers) content, mapping)

example : (renumber_citations "a [3] b [7] c [3]".data).1 = "a [1] b [2] c [1]".data := by decide

example : (renumber_citations "[12][5]".data).2 = [(5, 1), (12, 2)] := by decide

example : (renumber_citations "[007] x [1".data).1 = "[1] x [1".data := by decide

/-! ## Orchestrator (src/agent/orchestrator.py)

The LM client is modelled as an oracle indexed by the number of reasoning-loop
chat calls already made (`_get_llm_response` invocations); `Except.error`
models a raised `OllamaError`.  The MCP tool client is an oracle from
`(name, arguments)` to an outcome; wall-clock durations are oracle data.
Logging, timestamps and UI callbacks are omitted; the assembled message lists
are not modelled because the LM oracle abstracts over the transcript.  The
auxiliary chat call of `_generate_followup_questions` is a separate oracle
(`FuReply`), mirroring the fact that it does not go through
`_get_llm_response`. -/

/-- Mirrors `Message`. -/
structure Message where
  role : Str
  content : Str
  deriving DecidableEq

/-- The result payload shapes consumed by `_extract_sources` (spec section
6.2): `web_search` items, `fetch_page` pages, `get_note` notes, and anything
else. -/
structure SearchItem where
  url : Str
  title : Str

inductive ToolData where
  | search : List SearchItem → ToolData
  | page : Str → Str → ToolData
  | note : List Str → ToolData
  | other : ToolData

/-- Outcome of `mcp.call_tool`: a protocol success with data, a protocol
failure with optional error text, or a raised `MCPError`.  The measured
duration is oracle data. -/
inductive MCPOutcome where
  | success : ToolData → Nat → MCPOutcome
  | failure : Option Str → Nat → MCPOutcome
  | raised : Str → Nat → MCPOutcome

/-- Mirrors `ToolExecution`. -/
structure ToolExecutionS where
  tool_name : Str
  arguments : List (Str × Json)
  result : Option ToolData
  error : Option Str
  success : Bool
  duration_ms : Nat
  request_id : Str

/-- Mirrors `Source`. -/
structure Source where
  url : Str
  title : Str
  tool : Str
  deriving DecidableEq

/-- Mirrors `VALID_TOOLS` (a Python set; listed in declaration order). -/
def VALID_TOOLS : List Str :=
  ["web_search".data, "fetch_page".data, "save_note".data, "list_notes".data, "get_note".data]

/-- The unknown-tool error text (the set join rendered in declaration
order). -/
def unknownToolMsg (name : Str) : Str :=
  "Unknown tool: ".data ++ name ++
    ". Valid tools: web_search, fetch_page, save_note, list_notes, get_note".data

/-- Mirrors `_execute_tool`.  Returns the `ToolExecution` record and the list
of invocations made on the tool client (empty exactly when the client was not
called). -/
def execute_tool (request_id fetch_extract_mode : Str)
    (client : Str → List (Str × Json) → MCPOutcome) (tc : ToolCallS) :
    ToolExecutionS × List (Str × List (Str × Json)) :=
  if tc.name ∉ VALID_TOOLS then
    (⟨tc.name, tc.arguments, none, some (unknownToolMsg tc.name), false, 0, request_id⟩, [])
  else
    let args :=
      if tc.name = "fetch_page".data && !(tc.arguments.any (fun p => p.1 == "extract_mode".data)) then
        tc.arguments ++ [("extract_mode".data, Json.jstr fetch_extract_mode)]
      else tc.arguments
    match client tc.name args with
    | .success d dur =>
      (⟨tc.name, args, some d, none, true, dur, request_id⟩, [(tc.name, args)])
    | .failure err dur =>
      let e := err.getD []
      let e := if e.isEmpty then "Unknown error".data else e
      (⟨tc.name, args, none, some e, false, dur, request_id⟩, [(tc.name, args)])
    | .raised msg dur =>
      (⟨tc.name, args, none, some msg, false, dur, request_id⟩, [(tc.name, args)])

/-- Mirrors `_extract_sources`.  For `fetch_page` the source always records
one entry, with missing payload fields defaulting to the empty string
(`result.get("url", "")`). -/
def extract_sources (tool_name : Str) (result : ToolData) : List Source :=
  if tool_name = "web_search".data then
    match result with
    | .search items => items.map (fun it => ⟨it.url, it.title, "web_search".data⟩)
    | _ => []
  else if tool_name = "fetch_page".data then
    match result with
    | .page u t => [⟨u, t, "fetch_page".data⟩]
    | _ => [⟨[], [], "fetch_page".data⟩]
  else if tool_name = "get_note".data then
    match result with
    | .note urls => urls.map (fun u => ⟨u, "From saved note".data, "get_note".data⟩)
    | _ => []
  else []

/-- Helper for `_deduplicate_sources`: `seen` is the set of URLs already
added. -/
def dedupGo : List Source → List Str → List Source
  | [], _ => []
  | s :: rest, seen =>
    if !s.url.isEmpty && s.url ∉ seen then s :: dedupGo rest (s.url :: seen)
    else dedupGo rest seen

/-- Mirrors `_deduplicate_sources`. -/
def deduplicate_sources (sources : List Source) : List Source :=
  dedupGo sources []

/-- Mirrors `_generate_suggested_title`. -/
def generate_suggested_title (query : Str) : Str :=
  let title := stripWs query
  let prefixes := ["what is".data, "what are".data, "how to".data, "how do".data,
    "why".data, "can you".data]
  let title :=
    match prefixes.find? (fun p => p.isPrefixOf (lc title)) with
    | some p => stripWs (title.drop p.length)
    | none => title
  let title :=
    match title with
    | [] => []
    | c :: rest => c.toUpper :: rest
  let title := if 70 < title.length then title.take 67 ++ "...".data else title
  let title := if title.length < 60 then "Research: ".data ++ title else title
  title.take 80

/-- Mirrors `_fallback_followup_questions`. -/
def fallback_followup_questions (query : Str) : List Str :=
  let query_lower := lc query
  let topic := stripWs (query.filter (fun c => c ≠ '?'))
  let prefixes := ["what is".data, "what are".data, "how to".data, "how do".data,
    "why is".data, "why are".data]
  let topic :=
    match prefixes.find? (fun p => p.isPrefixOf query_lower) with
    | some p => stripSet "?".data (stripWs (query.drop p.length))
    | none => topic
  let topic := if 30 < topic.length then topic.take 30 else topic
  ["What are the pros and cons of ".data ++ topic ++ "?".data,
   "Can you show a practical example?".data,
   "How does this compare to alternatives?".data]

/-- Outcome of the auxiliary follow-up chat call: a raised exception, or a
reply whose `message.content` is the given text (possibly empty, which Python
treats as falsy). -/
inductive FuReply where
  | raised : FuReply
  | ok : Str → FuReply

/-- The line filter of `_generate_followup_questions`: strip each line,
keep those ending in a question mark with length above 10, cap each at 80
characters, and stop once three are collected. -/
def collect_questions : List Str → List Str → List Str
  | [], acc => acc
  | line :: rest, acc =>
    let q := stripWs (stripSet "0123456789.-) ".data (stripWs line))
    let acc' :=
      if !q.isEmpty && decide (10 < q.length) && q.getLast? == some '?' then acc ++ [q.take 80]
      else acc
    if 3 ≤ acc'.length then acc' else collect_questions rest acc'

/-- Mirrors `_generate_followup_questions` given the auxiliary chat
outcome. -/
def generate_followup_questions (query response_content : Str) (sources : List Source)
    (fu : FuReply) : List Str :=
  match fu with
  | .raised => fallback_followup_questions query
  | .ok content =>
    if content.isEmpty then fallback_followup_questions query
    else
      let lines := splitChar (Char.ofNat 10) (stripWs content)
      let questions := collect_questions lines []
      if questions.isEmpty then fallback_followup_questions query
      else questions.take 3

/-- Fixed diagnostic used when the forced summary comes back empty. -/
def summaryEmptyMsg : Str :=
  "I gathered information from multiple sources but couldn".data ++ [squote] ++
    "t generate a complete summary. Please check the sources below.".data

/-- Fixed diagnostic used when the forced summary call raises. -/
def summaryFailedMsg : Str :=
  "Research completed but summary generation failed. Please check the sources below.".data

def MAX_TOOL_ITERATIONS : Nat := 5

/-- Execute the tool calls of one turn in textual order, extending the trace
and harvesting sources from successful executions. -/
def run_tool_calls (request_id fetch_extract_mode : Str)
    (client : Str → List (Str × Json) → MCPOutcome) :
    List ToolCallS → List ToolExecutionS → List Source → List ToolExecutionS × List Source
  | [], trace, srcs => (trace, srcs)
  | tc :: rest, trace, srcs =>
    let ex := (execute_tool request_id fetch_extract_mode client tc).1
    let srcs' :=
      match ex.result with
      | some d => if ex.success then srcs ++ extract_sources tc.name d else srcs
      | none => srcs
    run_tool_calls request_id fetch_extract_mode client rest (trace ++ [ex]) srcs'

/-- The `while iterations < MAX_TOOL_ITERATIONS` loop of `research`: returns
the final response (empty when the loop exhausted without a tool-less reply),
the iteration count, the number of LM calls made, the trace and the raw
sources; an LM error propagates. -/
def research_loop (lm : Nat → Except Unit Str)
    (client : Str → List (Str × Json) → MCPOutcome) (request_id fetch_extract_mode : Str) :
    Nat → Nat → Nat → List ToolExecutionS → List Source →
    Except Unit (Str × Nat × Nat × List ToolExecutionS × List Source)
  | 0, iterations, llm_calls, trace, srcs => .ok ([], iterations, llm_calls, trace, srcs)
  | fuel + 1, iterations, llm_calls, trace, srcs =>
    let iterations' := iterations + 1
    match lm llm_calls with
    | .error e => .error e
    | .ok llm_response =>
      let llm_calls' := llm_calls + 1
      let parse_result := parse_tool_calls llm_response
      if parse_result.tool_calls.isEmpty then
        .ok (llm_response, iterations', llm_calls', trace, srcs)
      else
        let (trace', srcs') := run_tool_calls request_id fetch_extract_mode client
          parse_result.tool_calls trace srcs
        research_loop lm client request_id fetch_extract_mode fuel iterations' llm_calls' trace' srcs'

/-- Summary of one `research()` call. `llm_calls` counts the
`_get_llm_response` invocations (loop turns plus the forced summary; the
follow-up generator uses its own direct chat call, modelled by `FuReply`). -/
structure ResearchOutcome where
  content : Str
  tool_trace : List ToolExecutionS
  sources : List Source
  can_save_as_note : Bool
  suggested_title : Str
  followup_questions : List Str
  llm_calls : Nat
  iterations : Nat
  forced_summary : Bool

/-- A `research()` call together with the conversation history the
orchestrator holds afterwards (unchanged when the call raises). -/
structure ResearchResult where
  history : List Message
  outcome : Except Unit ResearchOutcome

/-- Mirrors `research`: run the loop, request the forced summary when no
tool-less reply was produced (stripping any accidental tool call and
substituting the fixed diagnostics), update the conversation history, and
assemble the response fields. -/
def research (query : Str) (history : List Message) (lm : Nat → Except Unit Str)
    (client : Str → List (Str × Json) → MCPOutcome) (fu : FuReply)
    (fetch_extract_mode request_id : Str) : ResearchResult :=
  match research_loop lm client request_id fetch_extract_mode MAX_TOOL_ITERATIONS 0 0 [] [] with
  | .error e => ⟨history, .error e⟩
  | .ok (final0, iterations, llm_calls0, trace, srcs) =>
    let (final_response, llm_calls, forced) :=
      if final0.isEmpty then
        match lm llm_calls0 with
        | .ok r =>
          let f := if containsSub r openTagLit then stripWs (beforeFirst r openTagLit) else r
          let f := if f.isEmpty then summaryEmptyMsg else f
          (f, llm_calls0 + 1, true)
        | .error _ => (summaryFailedMsg, llm_calls0 + 1, true)
      else (final0, llm_calls0, false)
    let history' := history ++ [⟨"user".data, query⟩, ⟨"assistant".data, final_response⟩]
    let suggested_title := generate_suggested_title query
    let can_save := !final_response.isEmpty && !("❌".data.isPrefixOf final_response)
    let deduplicated := deduplicate_sources srcs
    let followups := generate_followup_questions query final_response deduplicated fu
    ⟨history', .ok ⟨final_response, trace, deduplicated, can_save, suggested_title,
      followups, llm_calls, iterations, forced⟩⟩

/-- The chunk-consumption loop of one `research_stream` turn (orchestrator
lines 356-372): accumulate each chunk into `current_response`; yield the chunk
only when the buffer does not contain `<tool_call>`; stop consuming once the
buffer contains both tags.  Returns the yielded chunks and the final
buffer. -/
def stream_turn : List Str → Str → List Str × Str
  | [], acc => ([], acc)
  | chunk :: rest, acc =>
    let acc' := acc ++ chunk
    if containsSub acc' openTagLit then
      if containsSub acc' closeTagLit then ([], acc')
      else stream_turn rest acc'
    else
      match stream_turn rest acc' with
      | (ys, fin) => (chunk :: ys, fin)

example :
    (stream_turn ["<tool_".data, "call></tool_call>".data] []).1 = ["<tool_".data] := by decide

example :
    generate_followup_questions "what is x".data "a".data [] (.ok "Is water wet today?".data)
      = ["Is water wet today?".data] := by decide

example :
    fallback_followup_questions "what is lean?".data =
      ["What are the pros and cons of lean?".data,
       "Can you show a practical example?".data,
       "How does this compare to alternatives?".data] := by decide

example : generate_suggested_title "what is lean".data = "Research: Lean".data := by decide

/-! ## Deduplication: claim C6 -/

/-- Second definition following the spec wording, for comparison with the
source function: walk the list keeping a source exactly when its url is
non-empty and did not appear among the earlier elements. -/
def dedupSpecGo : List Source → List Source → List Source
  | _, [] => []
  | earlier, s :: rest =>
    if !s.url.isEmpty && !(earlier.any (fun t => t.url == s.url)) then
      s :: dedupSpecGo (earlier ++ [s]) rest
    else dedupSpecGo (earlier ++ [s]) rest

/-- Spec-side deduplication: first-occurrence filter over the whole list. -/
def dedupSpec (l : List Source) : List Source := dedupSpecGo [] l

theorem dedupGo_eq_spec (l : List Source) (earlier : List Source) (seen : List Str)
    (hinv : ∀ u : Str, u ∈ seen ↔ (u ≠ [] ∧ ∃ t ∈ earlier, t.url = u)) :
    dedupGo l seen = dedupSpecGo earlier l := by
  induction l generalizing earlier seen with
  | nil => rfl
  | cons s rest ih =>
    have hextend : ∀ u : Str, u ∈ seen → (u ≠ [] ∧ ∃ t ∈ earlier ++ [s], t.url = u) := by
      intro u hu
      obtain ⟨hne, t, ht, hturl⟩ := (hinv u).1 hu
      exact ⟨hne, t, List.mem_append_left _ ht, hturl⟩
    by_cases hemp : s.url = []
    · have hc1 : (!s.url.isEmpty && decide (s.url ∉ seen)) = false := by simp [hemp]
      have hc2 : (!s.url.isEmpty && !(earlier.any (fun t => t.url == s.url))) = false := by
        simp [hemp]
      simp only [dedupGo, dedupSpecGo, hc1, hc2, Bool.false_eq_true, if_false]
      refine ih (earlier ++ [s]) seen ?_
      intro u
      refine ⟨hextend u, ?_⟩
      rintro ⟨hne, t, ht, hturl⟩
      rcases List.mem_append.1 ht with htl | htr
      · exact (hinv u).2 ⟨hne, t, htl, hturl⟩
      · rw [List.mem_singleton] at htr
        exact absurd (by rw [← hturl, htr]; exact hemp) hne
    · by_cases hmem : s.url ∈ seen
      · obtain ⟨-, t, ht, hturl⟩ := (hinv s.url).1 hmem
        have hany : earlier.any (fun t => t.url == s.url) = true :=
          List.any_eq_true.2 ⟨t, ht, by simp [hturl]⟩
        have hc1 : (!s.url.isEmpty && decide (s.url ∉ seen)) = false := by simp [hmem]
        have hc2 : (!s.url.isEmpty && !(earlier.any (fun t => t.url == s.url))) = false := by
          simp [hany]
        simp only [dedupGo, dedupSpecGo, hc1, hc2, Bool.false_eq_true, if_false]
        refine ih (earlier ++ [s]) seen ?_
        intro u
        refine ⟨hextend u, ?_⟩
        rintro ⟨hne, t2, ht2, ht2url⟩
        rcases List.mem_append.1 ht2 with htl | htr
        · exact (hinv u).2 ⟨hne, t2, htl, ht2url⟩
        · rw [List.mem_singleton] at htr
          rw [htr] at ht2url
          rw [ht2url] at hmem
          exact hmem
      · have hnany : earlier.any (fun t => t.url == s.url) = false := by
          rw [Bool.eq_false_iff]
          intro hany
          obtain ⟨t, ht, hturl⟩ := List.any_eq_true.1 hany
          exact hmem ((hinv s.url).2 ⟨hemp, t, ht, by simpa using hturl⟩)
        have hc1 : (!s.url.isEmpty && decide (s.url ∉ seen)) = true := by simp [hemp, hmem]
        have hc2 : (!s.url.isEmpty && !(earlier.any (fun t => t.url == s.url))) = true := by
          simp [hemp, hnany]
        simp only [dedupGo, dedupSpecGo, hc1, hc2, if_true]
        congr 1
        refine ih (earlier ++ [s]) (s.url :: seen) ?_
        intro u
        constructor
        · intro hu
          rcases List.mem_cons.1 hu with rfl | hu2
          · exact ⟨hemp, s, List.mem_append_right _ (List.mem_singleton.2 rfl), rfl⟩
          · exact hextend u hu2
        · rintro ⟨hne, t, ht, hturl⟩
          rcases List.mem_append.1 ht with htl | htr
          · exact List.mem_cons_of_mem _ ((hinv u).2 ⟨hne, t, htl, hturl⟩)
          · rw [List.mem_singleton] at htr
            rw [htr] at hturl
            rw [← hturl]
            exact List.mem_cons_self _ _

theorem dedupGo_sublist (l : List Source) (seen : List Str) : (dedupGo l seen).Sublist l := by
  induction l generalizing seen with
  | nil => simp [dedupGo]
  | cons s rest ih =>
    by_cases h : (!s.url.isEmpty && decide (s.url ∉ seen)) = true
    · simpa only [dedupGo, h, if_true] using (ih (s.url :: seen)).cons₂ s
    · simp only [dedupGo, h, if_false]
      exact (ih seen).cons s

theorem dedupGo_urls_nodup (l : List Source) (seen : List Str) :
    (∀ t ∈ dedupGo l seen, t.url ∉ seen) ∧ ((dedupGo l seen).map (fun s => s.url)).Nodup := by
  induction l generalizing seen with
  | nil => simp [dedupGo]
  | cons s rest ih =>
    by_cases h : (!s.url.isEmpty && decide (s.url ∉ seen)) = true
    · simp only [dedupGo, h, if_true]
      rw [Bool.and_eq_true] at h
      have hmem : s.url ∉ seen := by simpa using h.2
      obtain ⟨hnotin, hnodup⟩ := ih (s.url :: seen)
      refine ⟨?_, ?_⟩
      · intro t ht
        rcases List.mem_cons.1 ht with rfl | ht2
        · exact hmem
        · exact fun hc => hnotin t ht2 (List.mem_cons_of_mem _ hc)
      · rw [List.map_cons, List.nodup_cons]
        refine ⟨?_, hnodup⟩
        intro hc
        obtain ⟨t, ht, hturl⟩ := List.mem_map.1 hc
        exact hnotin t ht (hturl ▸ List.mem_cons_self _ _)
    · simp only [dedupGo, h, if_false]
      obtain ⟨hnotin, hnodup⟩ := ih seen
      exact ⟨fun t ht => hnotin t ht, hnodup⟩

/-- C6: `_deduplicate_sources` includes a source iff its url is non-empty and
has not appeared earlier in the list (the first-occurrence filter
`dedupSpec`), every URL of the output occurs exactly once, and the output is a
sublist of the input (first-occurrence order preserved). -/
theorem deduplicate_sources_correct (sources : List Source) :
    deduplicate_sources sources = dedupSpec sources ∧
    ((deduplicate_sources sources).map (fun s => s.url)).Nodup ∧
    (deduplicate_sources sources).Sublist sources := by
  refine ⟨dedupGo_eq_spec sources [] [] (by simp), ?_, dedupGo_sublist sources []⟩
  exact (dedupGo_urls_nodup sources []).2

/-! ## Tool dispatcher: claim C3 -/

/-- C3: for a tool call whose name is not whitelisted, `_execute_tool` returns
an immediate failure record (success false, the descriptive unknown-tool
error, no result, zero duration) and performs no tool-client invocation. -/
theorem execute_tool_unknown_rejected (request_id fetch_extract_mode : Str)
    (client : Str → List (Str × Json) → MCPOutcome) (tc : ToolCallS)
    (h : tc.name ∉ VALID_TOOLS) :
    (execute_tool request_id fetch_extract_mode client tc).1.success = false ∧
    (execute_tool request_id fetch_extract_mode client tc).1.duration_ms = 0 ∧
    (execute_tool request_id fetch_extract_mode client tc).1.error
      = some (unknownToolMsg tc.name) ∧
    (execute_tool request_id fetch_extract_mode client tc).1.result = none ∧
    (execute_tool request_id fetch_extract_mode client tc).2 = [] := by
  simp [execute_tool, h]

/-- Concrete instance of C3: the hallucinated tool `summarize` is rejected
without any client call. -/
theorem execute_tool_unknown_rejected_witness :
    ("summarize".data ∉ VALID_TOOLS) ∧
    (execute_tool "r1".data "text".data (fun _ _ => .failure none 0)
        ⟨"summarize".data, [], "x".data⟩).1.success = false ∧
    (execute_tool "r1".data "text".data (fun _ _ => .failure none 0)
        ⟨"summarize".data, [], "x".data⟩).1.duration_ms = 0 ∧
    (execute_tool "r1".data "text".data (fun _ _ => .failure none 0)
        ⟨"summarize".data, [], "x".data⟩).1.error
      = some (unknownToolMsg "summarize".data) ∧
    (execute_tool "r1".data "text".data (fun _ _ => .failure none 0)
        ⟨"summarize".data, [], "x".data⟩).1.result = none ∧
    (execute_tool "r1".data "text".data (fun _ _ => .failure none 0)
        ⟨"summarize".data, [], "x".data⟩).2 = [] := by
  refine ⟨by decide, ?_⟩
  have h := execute_tool_unknown_rejected "r1".data "text".data (fun _ _ => .failure none 0)
    ⟨"summarize".data, [], "x".data⟩ (by decide)
  exact ⟨h.1, h.2.1, h.2.2.1, h.2.2.2.1, h.2.2.2.2⟩

/-! ## Follow-up generator: claims C8 -/

/-- C8 (corrected): the generator never raises in the model (it is a total
function); on a raised auxiliary call, on empty output, and on a reply with
zero valid question lines it returns exactly the three template questions; and
the template list always has exactly three entries. -/
theorem followup_fallback_cases (query response_content : Str) (sources : List Source)
    (c : Str)
    (hzero : collect_questions (splitChar (Char.ofNat 10) (stripWs c)) [] = []) :
    generate_followup_questions query response_content sources .raised
      = fallback_followup_questions query ∧
    generate_followup_questions query response_content sources (.ok [])
      = fallback_followup_questions query ∧
    generate_followup_questions query response_content sources (.ok c)
      = fallback_followup_questions query ∧
    (fallback_followup_questions query).length = 3 := by
  refine ⟨rfl, rfl, ?_, by simp [fallback_followup_questions]⟩
  by_cases hc : c.isEmpty
  · simp [generate_followup_questions, hc]
  · simp [generate_followup_questions, hc, hzero]

/-- Concrete instance of C8 as amended: a reply with no valid question line
falls back to the three templates. -/
theorem followup_fallback_cases_witness :
    collect_questions (splitChar (Char.ofNat 10) (stripWs "no questions here".data)) [] = [] ∧
    generate_followup_questions "what is x".data "ans".data [] (.ok "no questions here".data)
      = fallback_followup_questions "what is x".data := by
  refine ⟨by decide, ?_⟩
  exact (followup_fallback_cases "what is x".data "ans".data [] "no questions here".data
    (by decide)).2.2.1

/-- Counterexample to C8 as stated: a reply with exactly one valid question
line (fewer than 3) is returned as a single question, not replaced by the
three template questions. -/
theorem followup_single_line_counterexample :
    generate_followup_questions "what is x".data "ans".data []
        (.ok "Is water wet today?".data)
      = ["Is water wet today?".data] ∧
    (generate_followup_questions "what is x".data "ans".data []
        (.ok "Is water wet today?".data)).length = 1 ∧
    generate_followup_questions "what is x".data "ans".data []
        (.ok "Is water wet today?".data)
      ≠ fallback_followup_questions "what is x".data := by
  refine ⟨by decide, by decide, by decide⟩

/-! ## Streaming tool-call suppression: claim C7 -/

theorem containsSub_nil_pat (t : Str) : containsSub t [] = true := by
  induction t with
  | nil => rfl
  | cons c rest ih => simp [containsSub, ih]

theorem containsSub_append_right (s t pat : Str) (h : containsSub s pat = true) :
    containsSub (s ++ t) pat = true := by
  induction s with
  | nil =>
    simp only [containsSub, List.isEmpty_iff] at h
    subst h
    exact containsSub_nil_pat t
  | cons c rest ih =>
    simp only [containsSub, List.cons_append, Bool.or_eq_true] at h ⊢
    rcases h with h | h
    · left
      rw [List.isPrefixOf_iff_prefix] at h ⊢
      obtain ⟨m, hm⟩ := h
      exact ⟨m ++ t, by rw [← List.append_assoc, hm, List.cons_append]⟩
    · right
      exact ih h

/-- C7 (corrected): once the accumulated buffer of the streaming loop contains
the full `<tool_call>` tag, no subsequent chunk is yielded to the caller. -/
theorem stream_turn_suppresses_after_open (chunks : List Str) (acc : Str)
    (h : containsSub acc openTagLit = true) :
    (stream_turn chunks acc).1 = [] := by
  induction chunks generalizing acc with
  | nil => rfl
  | cons chunk rest ih =>
    have h2 : containsSub (acc ++ chunk) openTagLit = true :=
      containsSub_append_right acc chunk openTagLit h
    simp only [stream_turn, h2, if_true]
    by_cases hc : containsSub (acc ++ chunk) closeTagLit = true
    · simp [hc]
    · simp only [hc, Bool.false_eq_true, if_false]
      exact ih (acc ++ chunk) h2

/-- Concrete instance of the amended C7: with the opening tag already in the
buffer, later chunks are withheld. -/
theorem stream_turn_suppresses_after_open_witness :
    containsSub "<tool_call>".data openTagLit = true ∧
    (stream_turn ["hello".data, " world".data] "<tool_call>".data).1 = [] :=
  ⟨by decide, stream_turn_suppresses_after_open ["hello".data, " world".data]
    "<tool_call>".data (by decide)⟩

/-- Counterexample to C7 as stated: when a chunk boundary splits the opening
tag, the fragment `<tool_` (the first six characters of the tag, hence part of
tool-call syntax) is yielded to the caller verbatim. -/
theorem stream_turn_yields_tag_fragment :
    (stream_turn ["<tool_".data, "call></tool_call>".data] []).1 = ["<tool_".data] ∧
    openTagLit.take 6 = "<tool_".data ∧
    (stream_turn ["<tool_".data, "call></tool_call>".data] []).2
      = "<tool_call></tool_call>".data := by
  refine ⟨by decide, by decide, by decide⟩

/-! ## Research loop: claims C5, C2, C1 -/

/-- Content of a research call (empty for a raised error). -/
def contentOf (r : ResearchResult) : Str :=
  match r.outcome with
  | .ok o => o.content
  | .error _ => []

/-- C5: a `research()` call that returns normally appends exactly the user
query and the assistant answer to the conversation history; a call that
raises a service-level LM error leaves the history unchanged. -/
theorem research_history_delta (query : Str) (history : List Message)
    (lm : Nat → Except Unit Str) (client : Str → List (Str × Json) → MCPOutcome)
    (fu : FuReply) (fetch_extract_mode request_id : Str) :
    ((research query history lm client fu fetch_extract_mode request_id).outcome.isOk = true →
      (research query history lm client fu fetch_extract_mode request_id).history
        = history ++ [⟨"user".data, query⟩, ⟨"assistant".data,
            contentOf (research query history lm client fu fetch_extract_mode request_id)⟩]) ∧
    ((research query history lm client fu fetch_extract_mode request_id).outcome.isOk = false →
      (research query history lm client fu fetch_extract_mode request_id).history = history) := by
  cases hl : research_loop lm client request_id fetch_extract_mode MAX_TOOL_ITERATIONS 0 0 [] [] with
  | error e =>
    constructor
    · intro hok
      simp [research, hl, Except.isOk, Except.toBool] at hok
    · intro _
      simp [research, hl]
  | ok val =>
    obtain ⟨f0, its, calls, tr, srcs⟩ := val
    constructor
    · intro _
      simp only [research, hl, contentOf]
    · intro hok
      simp [research, hl, Except.isOk, Except.toBool] at hok

/-- Concrete instances of C5: with an LM that answers directly the history
grows by the (user, assistant) pair; with an LM that raises it is
unchanged. -/
theorem research_history_delta_witness :
    ((research "hello".data [] (fun _ => .ok "Hi there.".data) (fun _ _ => .failure none 0)
        .raised "text".data "r1".data).outcome.isOk = true) ∧
    ((research "hello".data [] (fun _ => .ok "Hi there.".data) (fun _ _ => .failure none 0)
        .raised "text".data "r1".data).history
      = [] ++ [⟨"user".data, "hello".data⟩, ⟨"assistant".data,
          contentOf (research "hello".data [] (fun _ => .ok "Hi there.".data)
            (fun _ _ => .failure none 0) .raised "text".data "r1".data)⟩]) ∧
    ((research "hello".data [] (fun _ => .error ()) (fun _ _ => .failure none 0)
        .raised "text".data "r1".data).outcome.isOk = false) ∧
    ((research "hello".data [] (fun _ => .error ()) (fun _ _ => .failure none 0)
        .raised "text".data "r1".data).history = []) := by
  refine ⟨by decide, ?_, by decide, ?_⟩
  · exact (research_history_delta "hello".data [] (fun _ => .ok "Hi there.".data)
      (fun _ _ => .failure none 0) .raised "text".data "r1".data).1 (by decide)
  · exact (research_history_delta "hello".data [] (fun _ => .error ())
      (fun _ _ => .failure none 0) .raised "text".data "r1".data).2 (by decide)

theorem research_loop_all_tools (lm : Nat → Except Unit Str)
    (client : Str → List (Str × Json) → MCPOutcome) (request_id fetch_extract_mode : Str) :
    ∀ (fuel iterations llm_calls : Nat) (trace : List ToolExecutionS) (srcs : List Source),
    (∀ i, i < fuel → ∃ r, lm (llm_calls + i) = .ok r ∧
      (parse_tool_calls r).tool_calls.isEmpty = false) →
    ∃ trace2 srcs2,
      research_loop lm client request_id fetch_extract_mode fuel iterations llm_calls trace srcs
        = .ok ([], iterations + fuel, llm_calls + fuel, trace2, srcs2) := by
  intro fuel
  induction fuel with
  | zero =>
    intro iterations llm_calls trace srcs _
    exact ⟨trace, srcs, by simp [research_loop]⟩
  | succ fuel ih =>
    intro iterations llm_calls trace srcs H
    obtain ⟨r, hr, hne⟩ := H 0 (Nat.succ_pos fuel)
    rw [Nat.add_zero] at hr
    obtain ⟨trace2, srcs2, hrec⟩ := ih (iterations + 1) (llm_calls + 1)
      (run_tool_calls request_id fetch_extract_mode client
        (parse_tool_calls r).tool_calls trace srcs).1
      (run_tool_calls request_id fetch_extract_mode client
        (parse_tool_calls r).tool_calls trace srcs).2
      (fun i hi => by
        obtain ⟨r2, hr2, hne2⟩ := H (i + 1) (Nat.succ_lt_succ hi)
        exact ⟨r2, by rw [show llm_calls + 1 + i = llm_calls + (i + 1) by omega]; exact hr2, hne2⟩)
    refine ⟨trace2, srcs2, ?_⟩
    simp only [research_loop, hr, hne, Bool.false_eq_true, if_false]
    rw [show iterations + 1 + fuel = iterations + (fuel + 1) by omega,
        show llm_calls + 1 + fuel = llm_calls + (fuel + 1) by omega] at hrec
    exact hrec

/-- C2: when each of the first five LM responses yields at least one parsed
tool call, `research()` makes exactly six reasoning-loop LM calls (five
tool-call-yielding turns plus the single forced summary), runs exactly five
iterations, and ends the loop through the forced-summary path. -/
theorem research_maxiter_six_llm_calls (query : Str) (history : List Message)
    (lm : Nat → Except Unit Str) (client : Str → List (Str × Json) → MCPOutcome)
    (fu : FuReply) (fetch_extract_mode request_id : Str)
    (H : ∀ i, i < 5 → ∃ r, lm i = .ok r ∧ (parse_tool_calls r).tool_calls.isEmpty = false) :
    ∃ out, (research query history lm client fu fetch_extract_mode request_id).outcome
        = .ok out ∧
      out.llm_calls = 6 ∧ out.iterations = 5 ∧ out.forced_summary = true := by
  obtain ⟨trace2, srcs2, hl⟩ := research_loop_all_tools lm client request_id fetch_extract_mode
    5 0 0 [] [] (fun i hi => by simpa using H i hi)
  have hl5 : research_loop lm client request_id fetch_extract_mode 5 0 0 [] []
      = .ok ([], 5, 5, trace2, srcs2) := by simpa using hl
  cases hlm : lm 5 with
  | ok r =>
    simp only [research, MAX_TOOL_ITERATIONS, hl5, List.isEmpty_nil, if_true, hlm]
    exact ⟨_, rfl, rfl, rfl, rfl⟩
  | error e =>
    simp only [research, MAX_TOOL_ITERATIONS, hl5, List.isEmpty_nil, if_true, hlm]
    exact ⟨_, rfl, rfl, rfl, rfl⟩

/-- LM oracle for the C2 witness: five tool-calling turns, then an answer. -/
def lmAllTools : Nat → Except Unit Str := fun i =>
  if i < 5 then .ok "<tool_call>\x7b\"name\": \"web_search\"\x7d</tool_call>".data
  else .ok "done".data

/-- Concrete instance of C2: five tool-calling turns force exactly one
summary call, six loop LM calls in total. -/
theorem research_maxiter_six_llm_calls_witness :
    (∀ i, i < 5 → ∃ r, lmAllTools i = .ok r ∧
      (parse_tool_calls r).tool_calls.isEmpty = false) ∧
    ∃ out, (research "q".data [] lmAllTools (fun _ _ => .failure none 0) .raised
        "text".data "r1".data).outcome = .ok out ∧
      out.llm_calls = 6 ∧ out.iterations = 5 ∧ out.forced_summary = true := by
  have H : ∀ i, i < 5 → ∃ r, lmAllTools i = .ok r ∧
      (parse_tool_calls r).tool_calls.isEmpty = false := by
    intro i hi
    refine ⟨"<tool_call>\x7b\"name\": \"web_search\"\x7d</tool_call>".data, ?_, by decide⟩
    simp [lmAllTools, hi]
  exact ⟨H, research_maxiter_six_llm_calls "q".data [] lmAllTools
    (fun _ _ => .failure none 0) .raised "text".data "r1".data H⟩

/-! ## Final content and tool-call tags: claim C1 -/

theorem containsSub_correct (s pat : Str) : containsSub s pat = true ↔ pat <:+: s := by
  induction s with
  | nil => simp [containsSub, List.isEmpty_iff]
  | cons c rest ih =>
    simp [containsSub, List.infix_cons_iff, List.isPrefixOf_iff_prefix, ih]

theorem beforeFirst_prefix (s pat : Str) : beforeFirst s pat <+: s := by
  induction s with
  | nil => exact List.nil_prefix
  | cons c rest ih =>
    by_cases hp : pat.isPrefixOf (c :: rest) = true
    · simp only [beforeFirst, hp, if_true]
      exact List.nil_prefix
    · simp only [beforeFirst, hp, Bool.false_eq_true, if_false]
      obtain ⟨m, hm⟩ := ih
      exact ⟨m, by rw [List.cons_append, hm]⟩

theorem beforeFirst_no_pat (s pat : Str) (hne : ¬pat = []) :
    containsSub (beforeFirst s pat) pat = false := by
  induction s with
  | nil => simp [beforeFirst, containsSub, List.isEmpty_iff, hne]
  | cons c rest ih =>
    by_cases hp : pat.isPrefixOf (c :: rest) = true
    · simp [beforeFirst, hp, containsSub, List.isEmpty_iff, hne]
    · simp only [beforeFirst, hp, Bool.false_eq_true, if_false]
      simp only [containsSub, Bool.or_eq_false_iff]
      refine ⟨?_, ih⟩
      rw [Bool.eq_false_iff]
      intro hpre
      apply hp
      rw [List.isPrefixOf_iff_prefix] at hpre ⊢
      have hbf : (c :: beforeFirst rest pat) <+: (c :: rest) := by
        obtain ⟨m, hm⟩ := beforeFirst_prefix rest pat
        exact ⟨m, by rw [List.cons_append, hm]⟩
      exact hpre.trans hbf

theorem stripWs_within (s : Str) : stripWs s <:+: s := by
  have h1 : (s.dropWhile isWsChar).reverse.dropWhile isWsChar <:+ (s.dropWhile isWsChar).reverse :=
    List.dropWhile_suffix _
  have h2 : ((s.dropWhile isWsChar).reverse.dropWhile isWsChar).reverse
      <+: (s.dropWhile isWsChar).reverse.reverse := List.reverse_prefix.2 h1
  rw [List.reverse_reverse] at h2
  exact (List.IsPrefix.isInfix h2).trans (List.IsSuffix.isInfix (List.dropWhile_suffix _))

theorem containsSub_false_of_infix (s t pat : Str) (h : containsSub s pat = false)
    (ht : t <:+: s) : containsSub t pat = false := by
  rw [Bool.eq_false_iff] at h ⊢
  intro hc
  exact h (containsSub_correct s pat |>.2 (((containsSub_correct t pat).1 hc).trans ht))

theorem research_loop_final_cases (lm : Nat → Except Unit Str)
    (client : Str → List (Str × Json) → MCPOutcome) (request_id fetch_extract_mode : Str) :
    ∀ (fuel iterations llm_calls : Nat) (trace : List ToolExecutionS) (srcs : List Source)
      (f0 : Str) (its calls : Nat) (tr : List ToolExecutionS) (srcs2 : List Source),
    research_loop lm client request_id fetch_extract_mode fuel iterations llm_calls trace srcs
      = .ok (f0, its, calls, tr, srcs2) →
    f0 = [] ∨ ∃ i, lm i = .ok f0 ∧ (parse_tool_calls f0).tool_calls.isEmpty = true := by
  intro fuel
  induction fuel with
  | zero =>
    intro iterations llm_calls trace srcs f0 its calls tr srcs2 h
    simp only [research_loop, Except.ok.injEq, Prod.mk.injEq] at h
    exact Or.inl h.1.symm
  | succ fuel ih =>
    intro iterations llm_calls trace srcs f0 its calls tr srcs2 h
    cases hlm : lm llm_calls with
    | error e => simp [research_loop, hlm] at h
    | ok r =>
      by_cases hemp : (parse_tool_calls r).tool_calls.isEmpty = true
      · simp only [research_loop, hlm, hemp, if_true, Except.ok.injEq, Prod.mk.injEq] at h
        refine Or.inr ⟨llm_calls, ?_, ?_⟩
        · rw [← h.1]
          exact hlm
        · rw [← h.1]
          exact hemp
      · simp only [research_loop, hlm, hemp, Bool.false_eq_true, if_false] at h
        exact ih _ _ _ _ _ _ _ _ _ h

/-- C1 (corrected): under the proviso that every LM response that parses to
zero tool calls contains no (case-sensitive) `<tool_call>` substring, the
final `ResearchResponse.content` contains no `<tool_call>` substring; the
forced-summary exit guarantees this unconditionally, while the normal exit
returns the last LM response verbatim. -/
theorem research_content_no_tag (query : Str) (history : List Message)
    (lm : Nat → Except Unit Str) (client : Str → List (Str × Json) → MCPOutcome)
    (fu : FuReply) (fetch_extract_mode request_id : Str)
    (H : ∀ i r, lm i = .ok r → (parse_tool_calls r).tool_calls.isEmpty = true →
      containsSub r openTagLit = false) :
    containsSub (contentOf (research query history lm client fu fetch_extract_mode request_id))
      openTagLit = false := by
  cases hl : research_loop lm client request_id fetch_extract_mode MAX_TOOL_ITERATIONS 0 0 [] [] with
  | error e =>
    have hc : contentOf (research query history lm client fu fetch_extract_mode request_id)
        = [] := by simp [contentOf, research, hl]
    rw [hc]
    decide
  | ok val =>
    obtain ⟨f0, its, calls, tr, srcs⟩ := val
    by_cases hemp : f0.isEmpty = true
    · cases hlm : lm calls with
      | ok r =>
        by_cases hct : containsSub r openTagLit = true
        · have hf : containsSub (stripWs (beforeFirst r openTagLit)) openTagLit = false :=
            containsSub_false_of_infix (beforeFirst r openTagLit) _ openTagLit
              (beforeFirst_no_pat r openTagLit (by decide)) (stripWs_within _)
          by_cases hfe : (stripWs (beforeFirst r openTagLit)).isEmpty = true
          · have hc : contentOf (research query history lm client fu fetch_extract_mode request_id)
                = summaryEmptyMsg := by
              simp [contentOf, research, hl, hemp, hlm, hct, hfe]
            rw [hc]
            decide
          · have hc : contentOf (research query history lm client fu fetch_extract_mode request_id)
                = stripWs (beforeFirst r openTagLit) := by
              simp [contentOf, research, hl, hemp, hlm, hct, hfe]
            rw [hc]
            exact hf
        · have hct' : containsSub r openTagLit = false := Bool.eq_false_iff.2 hct
          by_cases hre : r.isEmpty = true
          · have hc : contentOf (research query history lm client fu fetch_extract_mode request_id)
                = summaryEmptyMsg := by
              simp [contentOf, research, hl, hemp, hlm, hct, hre]
            rw [hc]
            decide
          · have hc : contentOf (research query history lm client fu fetch_extract_mode request_id)
                = r := by
              simp [contentOf, research, hl, hemp, hlm, hct, hre]
            rw [hc]
            exact hct'
      | error e =>
        have hc : contentOf (research query history lm client fu fetch_extract_mode request_id)
            = summaryFailedMsg := by
          simp [contentOf, research, hl, hemp, hlm]
        rw [hc]
        decide
    · have hc : contentOf (research query history lm client fu fetch_extract_mode request_id)
          = f0 := by
        simp [contentOf, research, hl, hemp]
      rw [hc]
      rcases research_loop_final_cases lm client request_id fetch_extract_mode
        MAX_TOOL_ITERATIONS 0 0 [] [] f0 its calls tr srcs hl with h0 | ⟨i, hi, hpe⟩
      · rw [h0] at hemp
        simp at hemp
      · exact H i f0 hi hpe

/-- Counterexample to C1 as stated: an LM reply with an unterminated tool-call
tag parses to zero tool calls, so the loop exits normally and returns the
reply verbatim — the final content then contains `<tool_call>`. -/
theorem research_content_tag_counterexample :
    (parse_tool_calls "hello <tool_call>".data).tool_calls.isEmpty = true ∧
    contentOf (research "q".data [] (fun _ => .ok "hello <tool_call>".data)
      (fun _ _ => .failure none 0) .raised "text".data "r1".data)
      = "hello <tool_call>".data ∧
    containsSub (contentOf (research "q".data [] (fun _ => .ok "hello <tool_call>".data)
      (fun _ _ => .failure none 0) .raised "text".data "r1".data)) openTagLit = true := by
  refine ⟨by decide, by decide, by decide⟩

/-- LM oracle for the C1 witness: a plain tag-free answer. -/
def lmPlain : Nat → Except Unit Str := fun _ => .ok "Hi there.".data

/-- Concrete instance of the amended C1. -/
theorem research_content_no_tag_witness :
    (∀ i r, lmPlain i = .ok r → (parse_tool_calls r).tool_calls.isEmpty = true →
      containsSub r openTagLit = false) ∧
    containsSub (contentOf (research "hello".data [] lmPlain (fun _ _ => .failure none 0)
      .raised "text".data "r1".data)) openTagLit = false := by
  have H : ∀ i r, lmPlain i = .ok r → (parse_tool_calls r).tool_calls.isEmpty = true →
      containsSub r openTagLit = false := by
    intro i r hr _
    have hx : "Hi there.".data = r := by simpa [lmPlain] using hr
    rw [← hx]
    decide
  exact ⟨H, research_content_no_tag "hello".data [] lmPlain (fun _ _ => .failure none 0)
    .raised "text".data "r1".data H⟩

/-! ## Parse reconstruction: claim C4 -/

theorem splitAtTagCI_sound (pat : Str) (s b t a : Str)
    (h : splitAtTagCI pat s = some (b, t, a)) : s = b ++ t ++ a ∧ lc t = pat := by
  induction s generalizing b with
  | nil =>
    by_cases hp : pat.isEmpty = true
    · simp only [splitAtTagCI, hp, if_true, Option.some.injEq, Prod.mk.injEq] at h
      obtain ⟨hb, ht, ha⟩ := h
      subst hb; subst ht; subst ha
      simpa [lc, List.isEmpty_iff] using (List.isEmpty_iff.1 hp).symm
    · simp [splitAtTagCI, hp] at h
  | cons c rest ih =>
    by_cases hp : pat.isPrefixOf (lc (c :: rest)) = true
    · simp only [splitAtTagCI, hp, if_true, Option.some.injEq, Prod.mk.injEq] at h
      obtain ⟨hb, ht, ha⟩ := h
      subst hb; subst ht; subst ha
      rw [List.isPrefixOf_iff_prefix] at hp
      obtain ⟨m, hm⟩ := hp
      constructor
      · simp [List.take_append_drop]
      · have hlen : pat.length ≤ (c :: rest).length := by
          have := congrArg List.length hm
          simp only [lc, List.length_append, List.length_map] at this ⊢
          omega
        rw [lc, List.map_take, show List.map Char.toLower (c :: rest) = lc (c :: rest) from rfl,
          ← hm, List.take_left']
        rfl
    · simp only [splitAtTagCI, hp, Bool.false_eq_true, if_false] at h
      cases hres : splitAtTagCI pat rest with
      | none => rw [hres] at h; exact absurd h (by simp)
      | some val =>
        obtain ⟨b2, t2, a2⟩ := val
        rw [hres] at h
        simp only [Option.some.injEq, Prod.mk.injEq] at h
        obtain ⟨hb, ht, ha⟩ := h
        subst hb; subst ht; subst ha
        obtain ⟨hdec, hlc⟩ := ih b2 hres
        exact ⟨by rw [hdec]; simp [List.append_assoc], hlc⟩

/-- Text of a complete region exactly as it occurs in the input. -/
def regionText (m : RegionMatch) : Str := m.pre ++ m.openTxt ++ m.body ++ m.closeTxt

theorem nextRegion_sound (s : Str) (m : RegionMatch) (rest : Str)
    (h : nextRegion s = some (m, rest)) :
    s = regionText m ++ rest ∧ lc m.openTxt = openTagLit ∧ lc m.closeTxt = closeTagLit := by
  cases h1 : splitAtTagCI openTagLit s with
  | none => simp [nextRegion, h1] at h
  | some v1 =>
    obtain ⟨pre, ot, afterOpen⟩ := v1
    cases h2 : splitAtTagCI closeTagLit afterOpen with
    | none => simp [nextRegion, h1, h2] at h
    | some v2 =>
      obtain ⟨body, ct, rest2⟩ := v2
      simp only [nextRegion, h1, h2, Option.some.injEq, Prod.mk.injEq] at h
      obtain ⟨hm, hrest⟩ := h
      subst hm
      subst hrest
      obtain ⟨hd1, hl1⟩ := splitAtTagCI_sound openTagLit s pre ot afterOpen h1
      obtain ⟨hd2, hl2⟩ := splitAtTagCI_sound closeTagLit afterOpen body ct rest2 h2
      refine ⟨?_, hl1, hl2⟩
      rw [hd1, hd2, regionText]
      simp [List.append_assoc]

theorem nextRegion_rest_lt (s : Str) (m : RegionMatch) (rest : Str)
    (h : nextRegion s = some (m, rest)) : rest.length < s.length := by
  obtain ⟨hdec, hlo, _⟩ := nextRegion_sound s m rest h
  have hlen : m.openTxt.length = openTagLit.length := by
    have := congrArg List.length hlo
    simpa [lc] using this
  have := congrArg List.length hdec
  simp only [regionText, List.length_append] at this
  have hop : openTagLit.length = 11 := by decide
  omega

theorem findMatchesF_decomp (fuel : Nat) :
    ∀ s : Str, s.length < fuel →
    s = (((findMatchesF fuel s).1.map regionText).flatten) ++ (findMatchesF fuel s).2 := by
  induction fuel with
  | zero => intro s h; omega
  | succ fuel ih =>
    intro s h
    cases hnr : nextRegion s with
    | none => simp [findMatchesF, hnr]
    | some v =>
      obtain ⟨m, rest⟩ := v
      have hlt : rest.length < fuel := by
        have := nextRegion_rest_lt s m rest hnr
        omega
      have hrec := ih rest hlt
      obtain ⟨hdec, -, -⟩ := nextRegion_sound s m rest hnr
      simp only [findMatchesF, hnr]
      cases hfm : findMatchesF fuel rest with
      | mk ms trail =>
        rw [hfm] at hrec
        simp only [List.map_cons, List.flatten_cons, List.append_assoc]
        rw [hdec, ← hrec]

theorem findMatches_decomp (s : Str) :
    s = (((findMatches s).1.map regionText).flatten) ++ (findMatches s).2 :=
  findMatchesF_decomp (s.length + 1) s (Nat.lt_succ_self _)

theorem findMatches_nil_trail (s : Str) (h : (findMatches s).1 = []) : (findMatches s).2 = s := by
  unfold findMatches at h ⊢
  cases hnr : nextRegion s with
  | none => simp [findMatchesF, hnr]
  | some v =>
    obtain ⟨m, rest⟩ := v
    simp only [findMatchesF, hnr] at h
    cases hfm : findMatchesF s.length rest with
    | mk ms trail =>
      rw [hfm] at h
      simp at h

/-- The non-whitespace characters of a string, for "reconstructs up to
whitespace" statements. -/
def nonWs (s : Str) : Str := s.filter (fun c => !isWsChar c)

theorem nonWs_dropWhile (l : Str) : nonWs (l.dropWhile isWsChar) = nonWs l := by
  induction l with
  | nil => rfl
  | cons c rest ih =>
    by_cases hw : isWsChar c = true
    · simp [nonWs, List.dropWhile, hw, List.filter] at ih ⊢
      exact ih
    · simp [List.dropWhile, hw]

theorem nonWs_stripWs (s : Str) : nonWs (stripWs s) = nonWs s := by
  unfold stripWs
  rw [show nonWs (((s.dropWhile isWsChar).reverse.dropWhile isWsChar).reverse)
      = (nonWs ((s.dropWhile isWsChar).reverse.dropWhile isWsChar)).reverse from
    (List.filter_reverse _ _)]
  rw [nonWs_dropWhile]
  rw [show nonWs (s.dropWhile isWsChar).reverse = (nonWs (s.dropWhile isWsChar)).reverse from
    (List.filter_reverse _ _)]
  rw [List.reverse_reverse, nonWs_dropWhile]

/-- The raw (stripped) bodies of the complete tool-call regions, i.e. the
`raw_json = match.group(1).strip()` strings computed per match. -/
def regionRawBodies (R : Str) : List Str :=
  (findMatches R).1.map (fun m => stripWs m.body)

/-- The reconstruction named by the claim:
`text_before || tool-call bodies || text_after`. -/
def parseReconstruction (R : Str) : Str :=
  (parse_tool_calls R).text_before ++ (regionRawBodies R).flatten
    ++ (parse_tool_calls R).text_after

/-- Second definition following the spec wording for C4: the characters of
`R` other than the matched tool-call tags, in order — everything around and
between the regions, the region bodies, and the trailing text. -/
def specDetaggedText (R : Str) : Str :=
  (((findMatches R).1.map (fun m => m.pre ++ m.body)).flatten) ++ (findMatches R).2

/-- Counterexample to C4 as stated: with two regions, the text strictly
between them (`MID`, neither whitespace nor tag text) is dropped by the
reconstruction. -/
theorem parse_reconstruction_counterexample :
    parseReconstruction "<tool_call>a</tool_call>MID<tool_call>b</tool_call>".data = "ab".data ∧
    specDetaggedText "<tool_call>a</tool_call>MID<tool_call>b</tool_call>".data = "aMIDb".data ∧
    nonWs (parseReconstruction "<tool_call>a</tool_call>MID<tool_call>b</tool_call>".data)
      ≠ nonWs (specDetaggedText "<tool_call>a</tool_call>MID<tool_call>b</tool_call>".data) := by
  refine ⟨by decide, by decide, by decide⟩

/-- C4 (corrected): the reconstruction equals `R` up to whitespace and the
tool-call tags whenever `R` contains at most one complete region and — when it
contains none — no unterminated opening tag.  (With two or more regions the
inter-region text is dropped; with an unterminated tag and no region the text
from the tag onward is dropped.) -/
theorem parse_reconstruction_single_region (R : Str)
    (hle : (findMatches R).1.length ≤ 1)
    (hnoinc : (findMatches R).1.length = 0 → hasIncompleteOpen R = false) :
    nonWs (parseReconstruction R) = nonWs (specDetaggedText R) := by
  cases hms : (findMatches R).1 with
  | nil =>
    have htrail : (findMatches R).2 = R := findMatches_nil_trail R hms
    have hinc : hasIncompleteOpen R = false := hnoinc (by rw [hms]; rfl)
    have hp : parse_tool_calls R = ⟨[], stripWs R, [], false⟩ := by
      unfold parse_tool_calls
      cases hfm : findMatches R with
      | mk ms trail =>
        rw [hfm] at hms htrail
        simp only at hms htrail
        subst hms
        simp [hinc]
    unfold parseReconstruction specDetaggedText regionRawBodies
    rw [hp, hms, htrail]
    simp [nonWs_stripWs]
  | cons m ms0 =>
    have hms0 : ms0 = [] := by
      have := hle
      rw [hms] at this
      simp at this
      exact this
    subst hms0
    have hp : parse_tool_calls R
        = ⟨((([m]).map (fun mm => stripWs mm.body)).filterMap parse_single_tool_call),
           stripWs m.pre, stripWs (findMatches R).2,
           hasIncompleteOpen (stripWs (findMatches R).2)⟩ := by
      unfold parse_tool_calls
      cases hfm : findMatches R with
      | mk ms trail =>
        rw [hfm] at hms
        simp only at hms
        subst hms
        rfl
    unfold parseReconstruction specDetaggedText regionRawBodies
    rw [hp, hms]
    simp only [List.map_cons, List.map_nil, List.flatten_cons, List.flatten_nil,
      List.append_nil, List.append_assoc, nonWs, List.filter_append]
    rw [show List.filter (fun c => !isWsChar c) (stripWs m.pre)
        = List.filter (fun c => !isWsChar c) m.pre from nonWs_stripWs m.pre,
      show List.filter (fun c => !isWsChar c) (stripWs m.body)
        = List.filter (fun c => !isWsChar c) m.body from nonWs_stripWs m.body,
      show List.filter (fun c => !isWsChar c) (stripWs (findMatches R).2)
        = List.filter (fun c => !isWsChar c) (findMatches R).2 from
        nonWs_stripWs (findMatches R).2]

/-- Concrete instance of the amended C4: one complete region reconstructs up
to whitespace and tags. -/
theorem parse_reconstruction_single_region_witness :
    (findMatches "see <tool_call> x </tool_call> after".data).1.length ≤ 1 ∧
    nonWs (parseReconstruction "see <tool_call> x </tool_call> after".data)
      = nonWs (specDetaggedText "see <tool_call> x </tool_call> after".data) := by
  refine ⟨by decide, ?_⟩
  exact parse_reconstruction_single_region "see <tool_call> x </tool_call> after".data
    (by decide) (by decide)

/-! ## Parser search predicates: claim C10 -/

/-- A case-insensitive occurrence of `pat` somewhere in `s`. -/
def OccursCI (pat s : Str) : Prop :=
  ∃ x t y, s = x ++ t ++ y ∧ lc t = pat

/-- The text contains an unterminated opening tag: an occurrence of
`<tool_call>` with no closing tag anywhere after it. -/
def UnterminatedOpen (s : Str) : Prop :=
  ∃ x t y, s = x ++ t ++ y ∧ lc t = openTagLit ∧ ¬ OccursCI closeTagLit y

/-- The text contains a complete tool-call region: an opening tag followed
(eventually) by a closing tag. -/
def CompleteRegion (s : Str) : Prop :=
  ∃ x t b u y, s = x ++ t ++ b ++ u ++ y ∧ lc t = openTagLit ∧ lc u = closeTagLit

theorem splitAtTagCI_none (pat s : Str) (h : splitAtTagCI pat s = none) :
    ¬ OccursCI pat s := by
  induction s with
  | nil =>
    rintro ⟨x, t, y, hdec, hlc⟩
    have hx : x = [] := by
      cases x with
      | nil => rfl
      | cons a as => simp at hdec
    have ht : t = [] := by
      subst hx
      cases t with
      | nil => rfl
      | cons a as => simp at hdec
    subst ht
    have hpe : pat = [] := by simpa [lc] using hlc.symm
    simp [splitAtTagCI, hpe] at h
  | cons c rest ih =>
    by_cases hp : pat.isPrefixOf (lc (c :: rest)) = true
    · simp [splitAtTagCI, hp] at h
    · simp only [splitAtTagCI, hp, Bool.false_eq_true, if_false] at h
      rintro ⟨x, t, y, hdec, hlc⟩
      cases x with
      | nil =>
        apply hp
        rw [List.isPrefixOf_iff_prefix]
        refine ⟨lc y, ?_⟩
        simp only [List.nil_append] at hdec
        rw [hdec, ← hlc]
        simp [lc, List.map_append]
      | cons cx x2 =>
        cases hres : splitAtTagCI pat rest with
        | none =>
          have hrest : rest = x2 ++ t ++ y := by
            have := hdec
            simp only [List.cons_append] at this
            exact (List.cons.inj this).2
          exact ih hres ⟨x2, t, y, hrest, hlc⟩
        | some v =>
          rw [hres] at h
          obtain ⟨b2, t2, a2⟩ := v
          simp at h

theorem splitAtTagCI_earliest (pat s b t a : Str)
    (h : splitAtTagCI pat s = some (b, t, a)) :
    ∀ x t2 y, s = x ++ t2 ++ y → lc t2 = pat → b.length ≤ x.length := by
  induction s generalizing b with
  | nil =>
    intro x t2 y _ _
    by_cases hpe : pat.isEmpty = true
    · simp only [splitAtTagCI, hpe, if_true, Option.some.injEq, Prod.mk.injEq] at h
      rw [← h.1]
      simp
    · simp [splitAtTagCI, hpe] at h
  | cons c rest ih =>
    intro x t2 y hdec hlc
    by_cases hp : pat.isPrefixOf (lc (c :: rest)) = true
    · simp only [splitAtTagCI, hp, if_true, Option.some.injEq, Prod.mk.injEq] at h
      rw [← h.1]
      simp
    · simp only [splitAtTagCI, hp, Bool.false_eq_true, if_false] at h
      cases hres : splitAtTagCI pat rest with
      | none => rw [hres] at h; simp at h
      | some v =>
        obtain ⟨b2, t3, a3⟩ := v
        rw [hres] at h
        simp only [Option.some.injEq, Prod.mk.injEq] at h
        obtain ⟨hb, ht, ha⟩ := h
        subst ht
        subst ha
        cases x with
        | nil =>
          exfalso
          apply hp
          rw [List.isPrefixOf_iff_prefix]
          refine ⟨lc y, ?_⟩
          simp only [List.nil_append] at hdec
          rw [hdec, ← hlc]
          simp [lc, List.map_append]
        | cons cx x2 =>
          have hrest : rest = x2 ++ t2 ++ y := by
            have := hdec
            simp only [List.cons_append] at this
            exact (List.cons.inj this).2
          have := ih b2 hres x2 t2 y hrest hlc
          rw [← hb]
          simp only [List.length_cons]
          omega

theorem append_split {A1 B1 A2 B2 : Str} (h : A1 ++ B1 = A2 ++ B2)
    (hle : A1.length ≤ A2.length) :
    ∃ mid, A2 = A1 ++ mid ∧ B1 = mid ++ B2 := by
  rcases List.append_eq_append_iff.1 h with ⟨a2, ha1, ha2⟩ | ⟨c2, hc1, hc2⟩
  · exact ⟨a2, ha1, ha2⟩
  · have hlen : c2.length = 0 := by
      have := congrArg List.length hc1
      simp only [List.length_append] at this
      omega
    have hc : c2 = [] := List.length_eq_zero.1 hlen
    subst hc
    have e1 : A1 = A2 := by simpa using hc1
    have e2 : B2 = B1 := by simpa using hc2
    exact ⟨[], by simp [e1], by simp [e2]⟩

theorem getD_middle (a b c : Str) (k : Nat) (hk : k < b.length) :
    (a ++ b ++ c).getD (a.length + k) ' ' = b.getD k ' ' := by
  rw [List.append_assoc]
  rw [List.getD_append_right a (b ++ c) ' ' (a.length + k) (by omega)]
  rw [show a.length + k - a.length = k by omega]
  exact List.getD_append b c ' ' k hk

theorem lc_append3 (x t y : Str) : lc (x ++ t ++ y) = lc x ++ lc t ++ lc y := by
  simp [lc, List.map_append]

theorem open_no_overlap (s x1 t1 y1 x2 t2 y2 : Str)
    (h1 : s = x1 ++ t1 ++ y1) (h2 : s = x2 ++ t2 ++ y2)
    (hl1 : lc t1 = openTagLit) (hl2 : lc t2 = openTagLit)
    (hlt : x1.length < x2.length) : x1.length + 11 ≤ x2.length := by
  by_contra hcon
  push_neg at hcon
  have hlen1 : t1.length = 11 := by
    have := congrArg List.length hl1
    simpa [lc] using this
  have hlen2 : t2.length = 11 := by
    have := congrArg List.length hl2
    simpa [lc] using this
  have e1 : (lc s).getD x2.length ' ' = openTagLit.getD (x2.length - x1.length) ' ' := by
    rw [h1, lc_append3, show x2.length = (lc x1).length + (x2.length - x1.length) by
      simp [lc]; omega]
    rw [getD_middle (lc x1) (lc t1) (lc y1) (x2.length - x1.length)
      (by simp [lc, hlen1]; omega)]
    rw [hl1]
    congr 1
    simp only [lc, List.length_map]
    omega
  have e2 : (lc s).getD x2.length ' ' = '<' := by
    rw [h2, lc_append3, show x2.length = (lc x2).length + 0 by simp [lc]]
    rw [getD_middle (lc x2) (lc t2) (lc y2) 0 (by simp [lc, hlen2])]
    rw [hl2]
    rfl
  have hk : openTagLit.getD (x2.length - x1.length) ' ' = '<' := by rw [← e1, e2]
  have hforall : ∀ k : Fin 11, 1 ≤ k.val → openTagLit.getD k.val ' ' ≠ '<' := by decide
  have hb : x2.length - x1.length < 11 := by omega
  exact hforall ⟨x2.length - x1.length, hb⟩ (by simp; omega) hk

theorem has_tool_call_iff (s : Str) : has_tool_call s = true ↔ CompleteRegion s := by
  constructor
  · intro h
    unfold has_tool_call at h
    cases hnr : nextRegion s with
    | none => rw [hnr] at h; simp at h
    | some v =>
      obtain ⟨m, rest⟩ := v
      obtain ⟨hdec, hlo, hlc⟩ := nextRegion_sound s m rest hnr
      exact ⟨m.pre, m.openTxt, m.body, m.closeTxt, rest,
        by rw [hdec]; simp [regionText, List.append_assoc], hlo, hlc⟩
  · rintro ⟨x, t, b, u, y, hdec, hlt, hlu⟩
    unfold has_tool_call
    cases h1 : splitAtTagCI openTagLit s with
    | none =>
      exact absurd ⟨x, t, b ++ u ++ y, by rw [hdec]; simp [List.append_assoc], hlt⟩
        (splitAtTagCI_none _ _ h1)
    | some v1 =>
      obtain ⟨pre, ot, afterOpen⟩ := v1
      obtain ⟨hd1, hl1⟩ := splitAtTagCI_sound _ _ _ _ _ h1
      have hearly := splitAtTagCI_earliest _ _ _ _ _ h1 x t (b ++ u ++ y)
        (by rw [hdec]; simp [List.append_assoc]) hlt
      have hlot : ot.length = 11 := by
        have := congrArg List.length hl1
        simpa [lc] using this
      have hlt11 : t.length = 11 := by
        have := congrArg List.length hlt
        simpa [lc] using this
      have heq : (pre ++ ot) ++ afterOpen = ((x ++ t) ++ b) ++ (u ++ y) := by
        rw [← hd1, hdec]
        simp [List.append_assoc]
      obtain ⟨mid, hA2, hB1⟩ := append_split heq
        (by simp only [List.length_append, hlot, hlt11]; omega)
      cases h2 : splitAtTagCI closeTagLit afterOpen with
      | none =>
        exact absurd ⟨mid, u, y, by rw [hB1]; simp [List.append_assoc], hlu⟩
          (splitAtTagCI_none _ _ h2)
      | some v2 =>
        obtain ⟨bo, ct, rr⟩ := v2
        simp [nextRegion, h1, h2]

theorem hasIncompleteOpenF_iff (fuel : Nat) :
    ∀ s : Str, s.length < fuel → (hasIncompleteOpenF fuel s = true ↔ UnterminatedOpen s) := by
  induction fuel with
  | zero => intro s h; omega
  | succ fuel ih =>
    intro s hs
    cases h1 : splitAtTagCI openTagLit s with
    | none =>
      rw [show hasIncompleteOpenF (fuel + 1) s = false by simp [hasIncompleteOpenF, h1]]
      simp only [Bool.false_eq_true, false_iff]
      rintro ⟨x, t, y, hdec, hlc, -⟩
      exact splitAtTagCI_none _ _ h1 ⟨x, t, y, hdec, hlc⟩
    | some v =>
      obtain ⟨pre, t, after⟩ := v
      obtain ⟨hd1, hl1⟩ := splitAtTagCI_sound _ _ _ _ _ h1
      have hlt11 : t.length = 11 := by
        have := congrArg List.length hl1
        simpa [lc] using this
      cases h2 : splitAtTagCI closeTagLit after with
      | none =>
        rw [show hasIncompleteOpenF (fuel + 1) s = true by simp [hasIncompleteOpenF, h1, h2]]
        simp only [true_iff]
        exact ⟨pre, t, after, hd1, hl1, splitAtTagCI_none _ _ h2⟩
      | some v2 =>
        obtain ⟨bo, ct, rr⟩ := v2
        have hstep : hasIncompleteOpenF (fuel + 1) s = hasIncompleteOpenF fuel after := by
          simp [hasIncompleteOpenF, h1, h2]
        have hlens : s.length = pre.length + (t.length + after.length) := by
          have := congrArg List.length hd1
          simpa [List.length_append] using this
        have hlen : after.length < fuel := by omega
        rw [hstep, ih after hlen]
        have hclose : OccursCI closeTagLit after := by
          obtain ⟨hd2, hl2⟩ := splitAtTagCI_sound _ _ _ _ _ h2
          exact ⟨bo, ct, rr, hd2, hl2⟩
        constructor
        · rintro ⟨x, t2, y, hdec, hlc, hnoc⟩
          exact ⟨pre ++ t ++ x, t2, y, by rw [hd1, hdec]; simp [List.append_assoc], hlc, hnoc⟩
        · rintro ⟨x, t2, y, hdec, hlc, hnoc⟩
          have hearly := splitAtTagCI_earliest _ _ _ _ _ h1 x t2 y hdec hlc
          have hlt2 : t2.length = 11 := by
            have := congrArg List.length hlc
            simpa [lc] using this
          rcases Nat.lt_or_ge pre.length x.length with hlt | hge
          · have hge11 := open_no_overlap s pre t after x t2 y hd1 hdec hl1 hlc hlt
            have heq : (pre ++ t) ++ after = x ++ (t2 ++ y) := by
              rw [← hd1, hdec]
              simp [List.append_assoc]
            obtain ⟨mid, hx, hafter⟩ := append_split heq
              (by simp only [List.length_append, hlt11]; omega)
            exact ⟨mid, t2, y, by rw [hafter]; simp [List.append_assoc], hlc, hnoc⟩
          · have hxeq : x.length = pre.length := by omega
            have heq : x ++ (t2 ++ y) = pre ++ (t ++ after) := by
              have := hdec.symm.trans hd1
              simpa [List.append_assoc] using this
            obtain ⟨hxp, hrest⟩ := List.append_inj heq hxeq
            obtain ⟨ht2, hy⟩ := List.append_inj hrest (by omega)
            rw [← hy] at hclose
            exact absurd hclose hnoc

theorem hasIncompleteOpen_iff (s : Str) : hasIncompleteOpen s = true ↔ UnterminatedOpen s :=
  hasIncompleteOpenF_iff (s.length + 1) s (Nat.lt_succ_self _)

/-- C10: a text with a complete tool-call region is never "waiting";
`is_waiting_for_tool_call` is true exactly when the text has an unterminated
opening tag and no complete region; and it is never true together with
`has_tool_call`. -/
theorem is_waiting_characterization (text : Str) :
    (CompleteRegion text → is_waiting_for_tool_call text = false) ∧
    (is_waiting_for_tool_call text = true ↔ (UnterminatedOpen text ∧ ¬ CompleteRegion text)) ∧
    ¬(is_waiting_for_tool_call text = true ∧ has_tool_call text = true) := by
  have hc := has_tool_call_iff text
  have hi := hasIncompleteOpen_iff text
  have hpart1 : CompleteRegion text → is_waiting_for_tool_call text = false := by
    intro hcr
    have h1 : has_tool_call text = true := hc.2 hcr
    unfold is_waiting_for_tool_call
    unfold has_tool_call at h1
    simp [h1]
  refine ⟨hpart1, ⟨?_, ?_⟩, ?_⟩
  · intro h
    unfold is_waiting_for_tool_call at h
    rw [Bool.and_eq_true] at h
    obtain ⟨h1, h2⟩ := h
    refine ⟨hi.1 h1, ?_⟩
    intro hcr
    have h3 := hc.2 hcr
    unfold has_tool_call at h3
    rw [h3] at h2
    simp at h2
  · rintro ⟨hu, hnc⟩
    unfold is_waiting_for_tool_call
    rw [Bool.and_eq_true]
    refine ⟨hi.2 hu, ?_⟩
    cases hs : (nextRegion text).isSome with
    | false => simp
    | true => exact absurd (hc.1 (by unfold has_tool_call; exact hs)) hnc
  · rintro ⟨hw, ht⟩
    rw [hpart1 (hc.1 ht)] at hw
    exact absurd hw (by simp)

/-- Concrete instance of C10: a complete region is present, so the streaming
predicate is not waiting. -/
theorem is_waiting_characterization_witness :
    CompleteRegion "<tool_call>x</tool_call>".data ∧
    is_waiting_for_tool_call "<tool_call>x</tool_call>".data = false := by
  have hcr : CompleteRegion "<tool_call>x</tool_call>".data :=
    ⟨[], "<tool_call>".data, "x".data, "</tool_call>".data, [], by decide, by decide, by decide⟩
  exact ⟨hcr, (is_waiting_characterization "<tool_call>x</tool_call>".data).1 hcr⟩

/-! ## Citation renumbering: claim C9 -/

theorem natDigitsF_eq (f1 : Nat) : ∀ (f2 n : Nat), n < f1 → n < f2 →
    natDigitsF f1 n = natDigitsF f2 n := by
  induction f1 with
  | zero => intro f2 n h1 _; omega
  | succ f1 ih =>
    intro f2 n h1 h2
    cases f2 with
    | zero => omega
    | succ f2 =>
      by_cases hn : n < 10
      · simp [natDigitsF, hn]
      · have hd : n / 10 < n := Nat.div_lt_self (by omega) (by omega)
        simp only [natDigitsF, hn, if_false]
        rw [ih f2 (n / 10) (by omega) (by omega)]

theorem digit_char_isDigit (n : Nat) (h : n < 10) : (Char.ofNat (48 + n)).isDigit = true := by
  interval_cases n <;> decide

theorem digit_char_toNat (n : Nat) (h : n < 10) : (Char.ofNat (48 + n)).toNat = 48 + n := by
  interval_cases n <;> decide

theorem natDigitsF_all_digits (f : Nat) : ∀ n, n < f →
    ∀ c ∈ natDigitsF f n, c.isDigit = true := by
  induction f with
  | zero => intro n h; omega
  | succ f ih =>
    intro n h c hc
    by_cases hn : n < 10
    · simp only [natDigitsF, hn, if_true, List.mem_singleton] at hc
      rw [hc]
      exact digit_char_isDigit n hn
    · have hd : n / 10 < n := Nat.div_lt_self (by omega) (by omega)
      simp only [natDigitsF, hn, if_false, List.mem_append, List.mem_singleton] at hc
      rcases hc with hc | hc
      · exact ih (n / 10) (by omega) c hc
      · rw [hc]
        exact digit_char_isDigit (n % 10) (Nat.mod_lt _ (by omega))

theorem natDigits_all_digits (n : Nat) : ∀ c ∈ natDigits n, c.isDigit = true :=
  natDigitsF_all_digits (n + 1) n (Nat.lt_succ_self _)

theorem natDigitsF_ne_nil (f : Nat) : ∀ n, n < f → natDigitsF f n ≠ [] := by
  induction f with
  | zero => intro n h; omega
  | succ f ih =>
    intro n h
    by_cases hn : n < 10
    · simp [natDigitsF, hn]
    · simp [natDigitsF, hn]

theorem natDigits_ne_nil (n : Nat) : natDigits n ≠ [] :=
  natDigitsF_ne_nil (n + 1) n (Nat.lt_succ_self _)

theorem digitsToNat_append_last (a : Str) (c : Char) :
    digitsToNat (a ++ [c]) = digitsToNat a * 10 + (c.toNat - 48) := by
  unfold digitsToNat
  rw [List.foldl_append]
  rfl

theorem digitsToNat_natDigitsF (f : Nat) : ∀ n, n < f →
    digitsToNat (natDigitsF f n) = n := by
  induction f with
  | zero => intro n h; omega
  | succ f ih =>
    intro n h
    by_cases hn : n < 10
    · simp only [natDigitsF, hn, if_true]
      show digitsToNat ([] ++ [Char.ofNat (48 + n)]) = n
      rw [digitsToNat_append_last, digit_char_toNat n hn]
      simp [digitsToNat]
    · have hd : n / 10 < n := Nat.div_lt_self (by omega) (by omega)
      simp only [natDigitsF, hn, if_false]
      rw [digitsToNat_append_last, ih (n / 10) (by omega),
        digit_char_toNat (n % 10) (Nat.mod_lt _ (by omega))]
      omega

theorem digitsToNat_natDigits (n : Nat) : digitsToNat (natDigits n) = n :=
  digitsToNat_natDigitsF (n + 1) n (Nat.lt_succ_self _)

theorem spanDigits_decomp (s ds r1 : Str) (h : spanDigits s = (ds, r1)) :
    s = ds ++ r1 := by
  have h1 : s.takeWhile Char.isDigit = ds := congrArg Prod.fst h
  have h2 : s.dropWhile Char.isDigit = r1 := congrArg Prod.snd h
  rw [← h1, ← h2, List.takeWhile_append_dropWhile]

theorem tokensF_eq (f1 : Nat) : ∀ (f2 : Nat) (s : Str), s.length < f1 → s.length < f2 →
    tokensF f1 s = tokensF f2 s := by
  induction f1 with
  | zero => intro f2 s h1 _; omega
  | succ f1 ih =>
    intro f2 s h1 h2
    cases f2 with
    | zero => omega
    | succ f2 =>
      cases s with
      | nil => rfl
      | cons c rest =>
        simp only [List.length_cons] at h1 h2
        by_cases hc : c = '['
        · subst hc
          cases hsp : spanDigits rest with
          | mk ds r1 =>
            cases ds with
            | nil =>
              simp only [tokensF, if_true, hsp]
              rw [ih f2 rest (by omega) (by omega)]
            | cons d0 ds2 =>
              cases r1 with
              | nil =>
                simp only [tokensF, if_true, hsp]
                rw [ih f2 rest (by omega) (by omega)]
              | cons d r2 =>
                by_cases hd : d = ']'
                · subst hd
                  simp only [tokensF, if_true, hsp]
                  have hdec := spanDigits_decomp rest (d0 :: ds2) (']' :: r2) hsp
                  have hlen : r2.length < rest.length := by
                    have := congrArg List.length hdec
                    simp only [List.length_append, List.length_cons] at this
                    omega
                  rw [ih f2 r2 (by omega) (by omega)]
                · simp only [tokensF, if_true, hsp, hd, if_false]
                  rw [ih f2 rest (by omega) (by omega)]
        · simp only [tokensF, hc, if_false]
          rw [ih f2 rest (by omega) (by omega)]

theorem spanDigits_digits_close (a r : Str) (ha : ∀ c ∈ a, c.isDigit = true) :
    spanDigits (a ++ ']' :: r) = (a, ']' :: r) := by
  have hcl : Char.isDigit ']' = false := by decide
  unfold spanDigits
  have ht : (a ++ ']' :: r).takeWhile Char.isDigit = a := by
    induction a with
    | nil => simp [List.takeWhile_cons, hcl]
    | cons c a2 iha =>
      have hc := ha c (List.mem_cons_self c a2)
      simp only [List.cons_append, List.takeWhile_cons, hc, if_true]
      rw [iha (fun x hx => ha x (List.mem_cons_of_mem _ hx))]
  have hd : (a ++ ']' :: r).dropWhile Char.isDigit = ']' :: r := by
    clear ht
    induction a with
    | nil => simp [List.dropWhile_cons, hcl]
    | cons c a2 iha =>
      have hc := ha c (List.mem_cons_self c a2)
      simp only [List.cons_append, List.dropWhile_cons, hc, if_true]
      exact iha (fun x hx => ha x (List.mem_cons_of_mem _ hx))
  rw [ht, hd]

/-- Helper predicate: the remainder after an opening bracket begins with a
digit run followed by a closing bracket (the condition under which the scan
produces a citation token). -/
def spanClose : Str → Bool
  | [] => false
  | c :: r => if c = ']' then true else if c.isDigit then spanClose r else false

def spanHit : Str → Bool
  | [] => false
  | c :: r2 => c.isDigit && spanClose r2

theorem spanClose_iff (r : Str) : spanClose r = true ↔
    (r.dropWhile Char.isDigit).head? = some ']' := by
  induction r with
  | nil => simp [spanClose, List.dropWhile]
  | cons c r2 ih =>
    by_cases hc : c = ']'
    · subst hc
      have hcl : Char.isDigit ']' = false := by decide
      simp [spanClose, List.dropWhile_cons, hcl]
    · by_cases hd : c.isDigit = true
      · simp [spanClose, hc, hd, List.dropWhile_cons, ih]
      · simp [spanClose, hc, hd, List.dropWhile_cons]

theorem spanHit_iff (r : Str) : spanHit r = true ↔
    ((r.takeWhile Char.isDigit) ≠ [] ∧ (r.dropWhile Char.isDigit).head? = some ']') := by
  cases r with
  | nil => simp [spanHit, List.takeWhile]
  | cons c r2 =>
    by_cases hd : c.isDigit = true
    · simp [spanHit, hd, List.takeWhile_cons, List.dropWhile_cons, spanClose_iff]
    · simp [spanHit, hd, List.takeWhile_cons, List.dropWhile_cons]

theorem spanClose_bracket_open (x : Str) : spanClose ('[' :: x) = false := by
  simp [spanClose]

theorem spanClose_bracket_close (x : Str) : spanClose (']' :: x) = true := by
  simp [spanClose]

theorem tokens_cons_not_bracket (c : Char) (rest : Str) (hc : ¬ c = '[') :
    tokens (c :: rest) = .chr c :: tokens rest := by
  unfold tokens
  simp only [List.length_cons]
  simp only [tokensF, hc, if_false]

theorem tokens_cite_head (n : Nat) (r : Str) :
    tokens ('[' :: (natDigits n ++ ']' :: r)) = .cite n :: tokens r := by
  have hsp := spanDigits_digits_close (natDigits n) r (natDigits_all_digits n)
  cases hnd : natDigits n with
  | nil => exact absurd hnd (natDigits_ne_nil n)
  | cons d0 ds2 =>
    rw [hnd] at hsp
    have hval : digitsToNat (d0 :: ds2) = n := by
      rw [← hnd]
      exact digitsToNat_natDigits n
    unfold tokens
    simp only [List.length_cons]
    simp only [tokensF, if_true, hsp, hval]
    congr 1
    apply tokensF_eq
    · simp only [List.length_append, List.length_cons]
      omega
    · omega

theorem tokens_chr_bracket_head (r : Str) (hfail : spanHit r = false) :
    tokens ('[' :: r) = .chr '[' :: tokens r := by
  unfold tokens
  simp only [List.length_cons]
  cases hsp : spanDigits r with
  | mk ds r1 =>
    cases ds with
    | nil => simp only [tokensF, if_true, hsp]
    | cons d0 ds2 =>
      cases r1 with
      | nil => simp only [tokensF, if_true, hsp]
      | cons d r2 =>
        by_cases hd : d = ']'
        · exfalso
          subst hd
          have ht : r.takeWhile Char.isDigit = d0 :: ds2 := congrArg Prod.fst hsp
          have hdw : r.dropWhile Char.isDigit = ']' :: r2 := congrArg Prod.snd hsp
          have : spanHit r = true := (spanHit_iff r).2 ⟨by rw [ht]; simp, by rw [hdw]; rfl⟩
          rw [this] at hfail
          exact absurd hfail (by simp)
        · simp only [tokensF, if_true, hsp, hd, if_false]

theorem render_tokensF_bracket_head (g : Nat → Nat) (f : Nat) (rest : Str) :
    (render ((tokensF (f + 1) ('[' :: rest)).map (mapCite g))).head? = some '[' := by
  cases hsp : spanDigits rest with
  | mk ds r1 =>
    cases ds with
    | nil => simp [tokensF, hsp, render, renderTok, mapCite]
    | cons d0 ds2 =>
      cases r1 with
      | nil => simp [tokensF, hsp, render, renderTok, mapCite]
      | cons d r2 =>
        by_cases hd : d = ']'
        · subst hd
          simp [tokensF, hsp, render, renderTok, mapCite]
        · simp [tokensF, hsp, hd, render, renderTok, mapCite]

theorem spanClose_head_bracket (l : Str) (h : l.head? = some '[') : spanClose l = false := by
  cases l with
  | nil => simp at h
  | cons c r =>
    simp only [List.head?_cons, Option.some.injEq] at h
    subst h
    exact spanClose_bracket_open r

theorem spanHit_head_bracket (l : Str) (h : l.head? = some '[') : spanHit l = false := by
  cases l with
  | nil => simp at h
  | cons c r =>
    simp only [List.head?_cons, Option.some.injEq] at h
    subst h
    simp [spanHit]

theorem render_cons (t : CTok) (ts : List CTok) : render (t :: ts) = renderTok t ++ render ts := by
  simp [render]

theorem spanClose_render (g : Nat → Nat) (f : Nat) : ∀ s : Str, s.length < f →
    spanClose (render ((tokensF f s).map (mapCite g))) = spanClose s := by
  induction f with
  | zero => intro s h; omega
  | succ f ih =>
    intro s hs
    cases s with
    | nil => rfl
    | cons c rest =>
      simp only [List.length_cons] at hs
      by_cases hbr : c = '['
      · subst hbr
        rw [spanClose_head_bracket _ (render_tokensF_bracket_head g f rest),
          spanClose_bracket_open]
      · have hstep : tokensF (f + 1) (c :: rest) = .chr c :: tokensF f rest := by
          simp only [tokensF, hbr, if_false]
        rw [hstep, List.map_cons, show mapCite g (.chr c) = .chr c from rfl, render_cons,
          show renderTok (.chr c) = [c] from rfl, List.singleton_append]
        by_cases hcl : c = ']'
        · simp [spanClose, hcl]
        · by_cases hdg : c.isDigit = true
          · simp only [spanClose, hcl, if_false, hdg, if_true]
            exact ih rest (by omega)
          · simp [spanClose, hcl, hdg]

theorem spanHit_render (g : Nat → Nat) (f : Nat) : ∀ s : Str, s.length < f →
    spanHit (render ((tokensF f s).map (mapCite g))) = spanHit s := by
  cases f with
  | zero => intro s h; omega
  | succ f =>
    intro s hs
    cases s with
    | nil => rfl
    | cons c rest =>
      simp only [List.length_cons] at hs
      by_cases hbr : c = '['
      · subst hbr
        rw [spanHit_head_bracket _ (render_tokensF_bracket_head g f rest)]
        simp [spanHit]
      · have hstep : tokensF (f + 1) (c :: rest) = .chr c :: tokensF f rest := by
          simp only [tokensF, hbr, if_false]
        rw [hstep, List.map_cons, show mapCite g (.chr c) = .chr c from rfl, render_cons,
          show renderTok (.chr c) = [c] from rfl, List.singleton_append]
        simp only [spanHit]
        rw [spanClose_render g f rest (by omega)]

theorem tokens_render_map (g : Nat → Nat) (f : Nat) : ∀ s : Str, s.length < f →
    tokens (render ((tokensF f s).map (mapCite g))) = (tokensF f s).map (mapCite g) := by
  induction f with
  | zero => intro s h; omega
  | succ f ih =>
    intro s hs
    cases s with
    | nil => rfl
    | cons c rest =>
      simp only [List.length_cons] at hs
      by_cases hbr : c = '['
      · subst hbr
        cases hsp : spanDigits rest with
        | mk ds r1 =>
          cases ds with
          | nil =>
            have hfail : spanHit rest = false := by
              rw [Bool.eq_false_iff]
              intro hh
              obtain ⟨h1, -⟩ := (spanHit_iff rest).1 hh
              exact h1 (congrArg Prod.fst hsp)
            have hstep : tokensF (f + 1) ('[' :: rest) = .chr '[' :: tokensF f rest := by
              simp only [tokensF, if_true, hsp]
            rw [hstep, List.map_cons, show mapCite g (.chr '[') = .chr '[' from rfl, render_cons,
              show renderTok (.chr '[') = ['['] from rfl, List.singleton_append]
            rw [tokens_chr_bracket_head _ (by rw [spanHit_render g f rest (by omega)]; exact hfail)]
            rw [ih rest (by omega)]
          | cons d0 ds2 =>
            cases r1 with
            | nil =>
              have hfail : spanHit rest = false := by
                rw [Bool.eq_false_iff]
                intro hh
                obtain ⟨-, h2⟩ := (spanHit_iff rest).1 hh
                have hdw : rest.dropWhile Char.isDigit = [] := congrArg Prod.snd hsp
                rw [hdw] at h2
                exact absurd h2 (by simp)
              have hstep : tokensF (f + 1) ('[' :: rest) = .chr '[' :: tokensF f rest := by
                simp only [tokensF, if_true, hsp]
              rw [hstep, List.map_cons, show mapCite g (.chr '[') = .chr '[' from rfl, render_cons,
                show renderTok (.chr '[') = ['['] from rfl, List.singleton_append]
              rw [tokens_chr_bracket_head _
                (by rw [spanHit_render g f rest (by omega)]; exact hfail)]
              rw [ih rest (by omega)]
            | cons d r2 =>
              by_cases hd : d = ']'
              · subst hd
                have hdecomp := spanDigits_decomp rest (d0 :: ds2) (']' :: r2) hsp
                have hstep : tokensF (f + 1) ('[' :: rest)
                    = .cite (digitsToNat (d0 :: ds2)) :: tokensF f r2 := by
                  simp [tokensF, hsp]
                have hr2 : r2.length < f := by
                  have := congrArg List.length hdecomp
                  simp only [List.length_append, List.length_cons] at this
                  omega
                rw [hstep, List.map_cons,
                  show mapCite g (.cite (digitsToNat (d0 :: ds2)))
                    = .cite (g (digitsToNat (d0 :: ds2))) from rfl, render_cons,
                  show renderTok (.cite (g (digitsToNat (d0 :: ds2))))
                    = '[' :: (natDigits (g (digitsToNat (d0 :: ds2))) ++ [']']) from rfl]
                rw [show ('[' :: (natDigits (g (digitsToNat (d0 :: ds2))) ++ [']']))
                      ++ render ((tokensF f r2).map (mapCite g))
                    = '[' :: (natDigits (g (digitsToNat (d0 :: ds2)))
                      ++ ']' :: render ((tokensF f r2).map (mapCite g))) by
                  simp [List.cons_append, List.append_assoc]]
                rw [tokens_cite_head]
                rw [ih r2 hr2]
              · have hfail : spanHit rest = false := by
                  rw [Bool.eq_false_iff]
                  intro hh
                  obtain ⟨-, h2⟩ := (spanHit_iff rest).1 hh
                  have hdw : rest.dropWhile Char.isDigit = d :: r2 := congrArg Prod.snd hsp
                  rw [hdw] at h2
                  simp only [List.head?_cons, Option.some.injEq] at h2
                  exact hd h2
                have hstep : tokensF (f + 1) ('[' :: rest) = .chr '[' :: tokensF f rest := by
                  simp only [tokensF, if_true, hsp, hd, if_false]
                rw [hstep, List.map_cons, show mapCite g (.chr '[') = .chr '[' from rfl, render_cons,
                  show renderTok (.chr '[') = ['['] from rfl, List.singleton_append]
                rw [tokens_chr_bracket_head _
                  (by rw [spanHit_render g f rest (by omega)]; exact hfail)]
                rw [ih rest (by omega)]
      · have hstep : tokensF (f + 1) (c :: rest) = .chr c :: tokensF f rest := by
          simp only [tokensF, hbr, if_false]
        rw [hstep, List.map_cons, show mapCite g (.chr c) = .chr c from rfl, render_cons,
          show renderTok (.chr c) = [c] from rfl, List.singleton_append]
        rw [tokens_cons_not_bracket c _ hbr]
        rw [ih rest (by omega)]

theorem tokens_subCitations (g : Nat → Nat) (s : Str) :
    tokens (subCitations g s) = (tokens s).map (mapCite g) := by
  unfold subCitations tokens
  exact tokens_render_map g (s.length + 1) s (Nat.lt_succ_self _)

theorem citationNumbersL_subCitations (g : Nat → Nat) (s : Str) :
    citationNumbersL (subCitations g s) = (citationNumbersL s).map g := by
  unfold citationNumbersL
  rw [tokens_subCitations, List.filterMap_map, List.map_filterMap]
  congr 1
  funext t
  cases t <;> rfl

theorem subCitations_subCitations (g f : Nat → Nat) (s : Str) :
    subCitations g (subCitations f s)
      = render ((tokens s).map (fun t => mapCite g (mapCite f t))) := by
  show render ((tokens (subCitations f s)).map (mapCite g)) = _
  rw [tokens_subCitations, List.map_map]
  rfl

theorem sortDedup_sorted (l : List Nat) : List.Sorted (· ≤ ·) (sortDedup l) :=
  List.sorted_insertionSort _ _

theorem sortDedup_nodup (l : List Nat) : (sortDedup l).Nodup :=
  ((List.perm_insertionSort _ _).nodup_iff).2 (List.nodup_dedup l)

theorem mem_sortDedup (l : List Nat) (x : Nat) : x ∈ sortDedup l ↔ x ∈ l := by
  unfold sortDedup
  rw [(List.perm_insertionSort _ _).mem_iff, List.mem_dedup]

theorem rankOf_bounds (ns : List Nat) (x : Nat) (hx : x ∈ ns) :
    1 ≤ rankOf ns x ∧ rankOf ns x ≤ ns.length := by
  unfold rankOf
  have := List.indexOf_lt_length.2 hx
  omega

theorem rankOf_get (ns : List Nat) (hnd : ns.Nodup) (i : Nat) (hi : i < ns.length) :
    rankOf ns (ns.get ⟨i, hi⟩) = i + 1 := by
  unfold rankOf
  have hmem : ns.get ⟨i, hi⟩ ∈ ns := ns.get_mem i hi
  have h1 : List.indexOf (ns.get ⟨i, hi⟩) ns < ns.length := List.indexOf_lt_length.2 hmem
  have h2 : ns.get ⟨List.indexOf (ns.get ⟨i, hi⟩) ns, h1⟩ = ns.get ⟨i, hi⟩ :=
    List.indexOf_get h1
  have h3 := (hnd.get_inj_iff).1 h2
  have h4 : List.indexOf (ns.get ⟨i, hi⟩) ns = i := congrArg Fin.val h3
  omega

theorem rankOf_range' (m y : Nat) (h1 : 1 ≤ y) (h2 : y ≤ m) :
    rankOf (List.range' 1 m) y = y := by
  have hlen : (List.range' 1 m).length = m := by simp
  have hlt : y - 1 < (List.range' 1 m).length := by omega
  have hy : (List.range' 1 m).get ⟨y - 1, hlt⟩ = y := by
    rw [List.get_range']
    omega
  have := rankOf_get (List.range' 1 m) (List.nodup_range' 1 m) (y - 1) hlt
  rw [hy] at this
  rw [this]
  omega

theorem sortDedup_rank_map (xs : List Nat) (hne : sortDedup xs ≠ []) :
    sortDedup (xs.map (rankOf (sortDedup xs))) = List.range' 1 (sortDedup xs).length := by
  apply List.eq_of_perm_of_sorted (r := (· ≤ ·))
  · rw [List.perm_ext_iff_of_nodup (sortDedup_nodup _) (List.nodup_range' 1 _)]
    intro a
    rw [mem_sortDedup, List.mem_range'_1]
    constructor
    · intro ha
      obtain ⟨x, hx, hxa⟩ := List.mem_map.1 ha
      have hxns : x ∈ sortDedup xs := (mem_sortDedup xs x).2 hx
      have := rankOf_bounds (sortDedup xs) x hxns
      omega
    · rintro ⟨ha1, ha2⟩
      have hnd : (sortDedup xs).Nodup := sortDedup_nodup xs
      have hlen : a - 1 < (sortDedup xs).length := by omega
      have hget := rankOf_get (sortDedup xs) hnd (a - 1) hlen
      have hmem : (sortDedup xs).get ⟨a - 1, hlen⟩ ∈ xs :=
        (mem_sortDedup xs _).1 ((sortDedup xs).get_mem (a - 1) hlen)
      refine List.mem_map.2 ⟨(sortDedup xs).get ⟨a - 1, hlen⟩, hmem, ?_⟩
      rw [hget]
      omega
  · exact sortDedup_sorted _
  · exact (List.pairwise_lt_range' 1 _).imp fun h => le_of_lt h

theorem cite_mem_citationNumbersL (s : Str) (n : Nat) (h : CTok.cite n ∈ tokens s) :
    n ∈ citationNumbersL s := by
  unfold citationNumbersL
  exact List.mem_filterMap.2 ⟨.cite n, h, rfl⟩

/-- C9: `renumber_citations` is idempotent — applying it to already
renumbered content returns the same content, and the second old-to-new
mapping is the identity on the occurring citation numbers. -/
theorem renumber_citations_idempotent (content : Str) :
    (renumber_citations (renumber_citations content).1).1 = (renumber_citations content).1 ∧
    ∀ p ∈ (renumber_citations (renumber_citations content).1).2, p.1 = p.2 := by
  by_cases hne : (sortDedup (citationNumbersL content)).isEmpty = true
  · have h1 : renumber_citations content = (content, []) := by
      simp only [renumber_citations, hne, if_true]
    rw [h1]
    simp only
    rw [h1]
    simp
  · have hnsne : sortDedup (citationNumbersL content) ≠ [] := by
      intro hcontra
      exact hne (List.isEmpty_iff.2 hcontra)
    have h1 : renumber_citations content
        = (subCitations (rankOf (sortDedup (citationNumbersL content))) content,
           (sortDedup (citationNumbersL content)).enum.map (fun p => (p.2, p.1 + 1))) := by
      simp only [renumber_citations, hne, Bool.false_eq_true, if_false]
    have hmapped : citationNumbersL
        (subCitations (rankOf (sortDedup (citationNumbersL content))) content)
        = (citationNumbersL content).map (rankOf (sortDedup (citationNumbersL content))) :=
      citationNumbersL_subCitations _ _
    have hms : sortDedup (citationNumbersL
        (subCitations (rankOf (sortDedup (citationNumbersL content))) content))
        = List.range' 1 (sortDedup (citationNumbersL content)).length := by
      rw [hmapped]
      exact sortDedup_rank_map (citationNumbersL content) hnsne
    have hmne : (List.range' 1 (sortDedup (citationNumbersL content)).length).isEmpty
        = false := by
      rw [Bool.eq_false_iff]
      intro hcontra
      rw [List.isEmpty_iff] at hcontra
      have hlc := congrArg List.length hcontra
      simp only [List.length_range', List.length_nil] at hlc
      exact hnsne (List.length_eq_zero.1 hlc)
    have h2 : renumber_citations
        (subCitations (rankOf (sortDedup (citationNumbersL content))) content)
        = (subCitations (rankOf (List.range' 1 (sortDedup (citationNumbersL content)).length))
            (subCitations (rankOf (sortDedup (citationNumbersL content))) content),
           (List.range' 1 (sortDedup (citationNumbersL content)).length).enum.map
             (fun p => (p.2, p.1 + 1))) := by
      simp only [renumber_citations, hms, hmne, Bool.false_eq_true, if_false]
    constructor
    · rw [h1]
      simp only
      rw [h2]
      simp only
      rw [subCitations_subCitations]
      show _ = render ((tokens content).map
        (mapCite (rankOf (sortDedup (citationNumbersL content)))))
      congr 1
      apply List.map_congr_left
      intro tok htok
      cases tok with
      | chr c => rfl
      | cite n =>
        have hn : n ∈ citationNumbersL content := cite_mem_citationNumbersL content n htok
        have hnns : n ∈ sortDedup (citationNumbersL content) :=
          (mem_sortDedup _ n).2 hn
        have hb := rankOf_bounds (sortDedup (citationNumbersL content)) n hnns
        show CTok.cite (rankOf (List.range' 1 _) (rankOf (sortDedup (citationNumbersL content)) n))
          = CTok.cite (rankOf (sortDedup (citationNumbersL content)) n)
        rw [rankOf_range' _ _ hb.1 hb.2]
    · rw [h1]
      simp only
      rw [h2]
      simp only
      intro p hp
      obtain ⟨q, hq, hpq⟩ := List.mem_map.1 hp
      obtain ⟨i, x⟩ := q
      obtain ⟨hqlt, hqval⟩ := List.mem_enum hq
      rw [← hpq]
      simp only
      rw [hqval, List.getElem_range']
      omega

/-- Concrete instance of C9. -/
theorem renumber_citations_idempotent_witness :
    (renumber_citations (renumber_citations "a [3] b [7]".data).1).1
      = (renumber_citations "a [3] b [7]".data).1 ∧
    (1, 1) ∈ (renumber_citations (renumber_citations "a [3] b [7]".data).1).2 ∧
    ((1 : Nat), (1 : Nat)).1 = ((1 : Nat), (1 : Nat)).2 :=
  ⟨(renumber_citations_idempotent "a [3] b [7]".data).1, by decide,
   (renumber_citations_idempotent "a [3] b [7]".data).2 (1, 1) (by decide)⟩
